import Mathlib

/-!
Verification of `term/color.go` (dvaumoron/goterm).

A shallow embedding of the ANSI styling engine.  Go strings and byte slices
are finite byte sequences and are modelled as `List UInt8`.  The process-wide
variable `colorEnable` is passed explicitly as a `Bool` argument to every
function that reads it.

`Color.String` contains the only loops of the package whose termination and
index safety are not evident, so its disabled branch is embedded as a
small-step machine over the two loop heads of the source; running it with a
step budget makes non-termination and index faults observable.
-/

namespace Term

/-- A Go `byte`. -/
abbrev Byte := UInt8

/-- A Go `string` (or `[]byte`): a finite sequence of bytes. -/
abbrev Str := List Byte

/-- A value of the Go type `Color` (a string). -/
abbrev Color := Str

/-! ## Constants (`color.go` lines 61-114) -/

/-- The constant `CSI = "\033["`. -/
def CSI : Str := [27, 91]
/-- The constant `SepCSI = ";"`. -/
def SepCSI : Str := [59]
/-- The constant `EndCSI = "m"`. -/
def EndCSI : Str := [109]

def FgBlack : Str := [51, 48]
def FgRed : Str := [51, 49]
def FgGreen : Str := [51, 50]
def FgYellow : Str := [51, 51]
def FgBlue : Str := [51, 52]
def FgMagenta : Str := [51, 53]
def FgCyan : Str := [51, 54]
def FgWhite : Str := [51, 55]
def FgDefault : Str := [51, 57]
def F256 : Str := [51, 56]
def BgBlack : Str := [52, 48]
def BgRed : Str := [52, 49]
def BgGreen : Str := [52, 50]
def BgYellow : Str := [52, 51]
def BgBlue : Str := [52, 52]
def BgMagenta : Str := [52, 53]
def BgCyan : Str := [52, 54]
def BgWhite : Str := [52, 55]
def BgDefault : Str := [52, 57]
def Bg256 : Str := [52, 56]
def Blink : Str := [53]
def Ital : Str := [51]
def Underln : Str := [52]
def Faint : Str := [50]
def Bld : Str := [49]
def NoMode : Str := [48]

/-- The byte constant `sepCSI = ';'`. -/
def sepCSI : Byte := 59
/-- The byte constant `endCSI = 'm'`. -/
def endCSI : Byte := 109

/-- The constant `eraser = CSI + FgDefault + SepCSI + BgDefault + EndCSI`. -/
def eraser : Str := CSI ++ FgDefault ++ SepCSI ++ BgDefault ++ EndCSI
/-- The constant `mod256 = ";5;"`. -/
def mod256 : Str := [59, 53, 59]
/-- The constant `start256 = CSI + F256 + mod256`. -/
def start256 : Str := CSI ++ F256 ++ mod256
/-- The constant `sep256 = SepCSI + Bg256 + mod256`. -/
def sep256 : Str := SepCSI ++ Bg256 ++ mod256
/-- The constant `eraser256 = CSI + FgDefault + mod256 + BgDefault + mod256 + EndCSI`. -/
def eraser256 : Str := CSI ++ FgDefault ++ mod256 ++ BgDefault ++ mod256 ++ EndCSI
/-- The constant `modRGB = ";2;"`. -/
def modRGB : Str := [59, 50, 59]
/-- The constant `startRGB = CSI + F256 + modRGB`. -/
def startRGB : Str := CSI ++ F256 ++ modRGB

/-! ## Library functions of `strconv` used by the package -/

/-- The loop of `strconv.formatBits` for base 10: the decimal digits of `n`
are put in front of `acc`, least significant first.  `fuel` bounds the number
of digits. -/
def strconv.formatBits : Nat → Nat → Str → Str
  | 0, _, acc => acc
  | fuel + 1, n, acc =>
    if n < 10 then UInt8.ofNat (48 + n) :: acc
    else strconv.formatBits fuel (n / 10) (UInt8.ofNat (48 + n % 10) :: acc)

/-- The function `strconv.Itoa`: decimal text of an integer, with a leading
`-` for negative values. -/
def strconv.Itoa (i : Int) : Str :=
  if i < 0 then 45 :: strconv.formatBits (i.natAbs + 1) i.natAbs []
  else strconv.formatBits (i.natAbs + 1) i.natAbs []

/-- A Go `error` value as the package produces it: the two kinds of
`*strconv.NumError` returned by `strconv.Atoi` (`ErrSyntax`, `ErrRange`), and
`errors.New(msg)`. -/
inductive Error where
  | invalidNumber
  | outOfRange
  | new (msg : Str)
  deriving DecidableEq, Repr

/-- The loop of `strconv.ParseUint` for base 10 and 64 bits, from the value
`n` read so far: a byte that is not a digit is a syntax error, a value that
does not fit in a `uint64` is a range error, whichever comes first. -/
def strconv.ParseUint : Str → Nat → Except Error Nat
  | [], n => Except.ok n
  | c :: rest, n =>
    if 48 ≤ c ∧ c ≤ 57 then
      if n * 10 + (c.toNat - 48) < 2 ^ 64 then
        strconv.ParseUint rest (n * 10 + (c.toNat - 48))
      else Except.error Error.outOfRange
    else Except.error Error.invalidNumber

/-- The function `strconv.Atoi` for a 64-bit `int`: an optional sign followed
by at least one decimal digit; a value outside the `int` range is a range
error.  The value that accompanies an error is not used by the package and is
left out. -/
def strconv.Atoi (s : Str) : Except Error Int :=
  let body : Str := match s with
    | 43 :: rest => rest
    | 45 :: rest => rest
    | _ => s
  let neg : Bool := s.head? = some 45
  if body = [] then Except.error Error.invalidNumber
  else
    match strconv.ParseUint body 0 with
    | Except.error err => Except.error err
    | Except.ok un =>
      if neg then
        if un ≤ 2 ^ 63 then Except.ok (-(un : Int)) else Except.error Error.outOfRange
      else
        if un < 2 ^ 63 then Except.ok (un : Int) else Except.error Error.outOfRange

/-! ## The package variable `colorEnable` (`color.go` lines 48-59) -/

/-- The package-level variables: the single flag `colorEnable`. -/
structure Globals where
  colorEnable : Bool
  deriving DecidableEq, Repr

/-- The state at program start: `var colorEnable = true`. -/
def Globals.initial : Globals := ⟨true⟩

/-- The function `ColorEnable`. -/
def ColorEnable (_g : Globals) : Globals := ⟨true⟩

/-- The function `ColorDisable`. -/
def ColorDisable (_g : Globals) : Globals := ⟨false⟩

/-! ## Single-attribute rendering (`color.go` lines 203-501) -/

/-- The function `colConcat`, with the global `colorEnable` as first argument. -/
def colConcat (colorEnable : Bool) (mode : Str) (s : Str) (nMode : Str) : Str :=
  if !colorEnable then s
  else CSI ++ mode ++ [endCSI] ++ s ++ CSI ++ nMode ++ [endCSI]

/-- The function `colConcatByte`, with the global `colorEnable` as first argument. -/
def colConcatByte (colorEnable : Bool) (mode : Str) (b : Str) (nMode : Str) : Str :=
  if !colorEnable then b
  else (((((([] ++ CSI) ++ mode) ++ [endCSI]) ++ b) ++ CSI) ++ nMode) ++ [endCSI]

def Green.String (colorEnable : Bool) (c : Str) : Str := colConcat colorEnable FgGreen c FgDefault
def Blue.String (colorEnable : Bool) (c : Str) : Str := colConcat colorEnable FgBlue c FgDefault
def Red.String (colorEnable : Bool) (c : Str) : Str := colConcat colorEnable FgRed c FgDefault
def Yellow.String (colorEnable : Bool) (c : Str) : Str := colConcat colorEnable FgYellow c FgDefault
def Magenta.String (colorEnable : Bool) (c : Str) : Str :=
  colConcat colorEnable FgMagenta c FgDefault
def White.String (colorEnable : Bool) (c : Str) : Str := colConcat colorEnable FgWhite c FgDefault
def Black.String (colorEnable : Bool) (c : Str) : Str := colConcat colorEnable FgBlack c FgDefault
def Cyan.String (colorEnable : Bool) (c : Str) : Str := colConcat colorEnable FgCyan c FgDefault
def BGreen.String (colorEnable : Bool) (c : Str) : Str := colConcat colorEnable BgGreen c BgDefault
def BBlue.String (colorEnable : Bool) (c : Str) : Str := colConcat colorEnable BgBlue c BgDefault
def BRed.String (colorEnable : Bool) (c : Str) : Str := colConcat colorEnable BgRed c BgDefault
def BYellow.String (colorEnable : Bool) (c : Str) : Str :=
  colConcat colorEnable BgYellow c BgDefault
def BMagenta.String (colorEnable : Bool) (c : Str) : Str :=
  colConcat colorEnable BgMagenta c BgDefault
def BWhite.String (colorEnable : Bool) (c : Str) : Str := colConcat colorEnable BgWhite c BgDefault
def BBlack.String (colorEnable : Bool) (c : Str) : Str := colConcat colorEnable BgBlack c BgDefault
def BCyan.String (colorEnable : Bool) (c : Str) : Str := colConcat colorEnable BgCyan c BgDefault
def Blinking.String (colorEnable : Bool) (c : Str) : Str := colConcat colorEnable Blink c NoMode
def Underline.String (colorEnable : Bool) (c : Str) : Str := colConcat colorEnable Underln c NoMode
def Bold.String (colorEnable : Bool) (c : Str) : Str := colConcat colorEnable Bld c NoMode
def Italic.String (colorEnable : Bool) (c : Str) : Str := colConcat colorEnable Ital c NoMode

/-! The byte-slice variants (`GreenByte` ... `ItalicByte`). -/

def GreenByte (colorEnable : Bool) (b : Str) : Str :=
  colConcatByte colorEnable FgGreen b FgDefault
def BlueByte (colorEnable : Bool) (b : Str) : Str :=
  colConcatByte colorEnable FgBlue b FgDefault
def RedByte (colorEnable : Bool) (b : Str) : Str :=
  colConcatByte colorEnable FgRed b FgDefault
def YellowByte (colorEnable : Bool) (b : Str) : Str :=
  colConcatByte colorEnable FgYellow b FgDefault
def MagentaByte (colorEnable : Bool) (b : Str) : Str :=
  colConcatByte colorEnable FgMagenta b FgDefault
def WhiteByte (colorEnable : Bool) (b : Str) : Str :=
  colConcatByte colorEnable FgWhite b FgDefault
def BlackByte (colorEnable : Bool) (b : Str) : Str :=
  colConcatByte colorEnable FgBlack b FgDefault
def CyanByte (colorEnable : Bool) (b : Str) : Str :=
  colConcatByte colorEnable FgCyan b FgDefault
def BGreenByte (colorEnable : Bool) (b : Str) : Str :=
  colConcatByte colorEnable BgGreen b BgDefault
def BBlueByte (colorEnable : Bool) (b : Str) : Str :=
  colConcatByte colorEnable BgBlue b BgDefault
def BRedByte (colorEnable : Bool) (b : Str) : Str :=
  colConcatByte colorEnable BgRed b BgDefault
def BYellowGreenByte (colorEnable : Bool) (b : Str) : Str :=
  colConcatByte colorEnable BgYellow b BgDefault
def BMagentaByte (colorEnable : Bool) (b : Str) : Str :=
  colConcatByte colorEnable BgMagenta b BgDefault
def BWhiteByte (colorEnable : Bool) (b : Str) : Str :=
  colConcatByte colorEnable BgWhite b BgDefault
def BBlackByte (colorEnable : Bool) (b : Str) : Str :=
  colConcatByte colorEnable BgBlack b BgDefault
def BCyanByte (colorEnable : Bool) (b : Str) : Str :=
  colConcatByte colorEnable BgCyan b BgDefault
def BlinkingByte (colorEnable : Bool) (b : Str) : Str :=
  colConcatByte colorEnable Blink b NoMode
def UnderlineByte (colorEnable : Bool) (b : Str) : Str :=
  colConcatByte colorEnable Underln b NoMode
def BoldByte (colorEnable : Bool) (b : Str) : Str :=
  colConcatByte colorEnable Bld b NoMode
def ItalicByte (colorEnable : Bool) (b : Str) : Str :=
  colConcatByte colorEnable Ital b NoMode

/-! ## Constructors of `Color` (`color.go` lines 503-542, 581-631, 661-716) -/

/-- The function `createColor`. -/
def createColor (str : Str) (fg : Str) (bg : Str) : Str :=
  CSI ++ fg ++ [sepCSI] ++ bg ++ [endCSI] ++ str ++ eraser

/-- The function `NewColor`; the second component is the Go `error`
(`none` for `nil`). -/
def NewColor (str : Str) (fg : Str) (bg : Str) : Color × Option Error :=
  let fgChecked : Except Error Str :=
    if fg ≠ [] then
      match strconv.Atoi fg with
      | Except.error err => Except.error err
      | Except.ok ifg =>
        if ifg < 30 ∧ ifg > 37 then
          Except.error (Error.new ([102, 103, 58, 32] ++ fg ++
            [110, 111, 116, 32, 97, 32, 118, 97, 108, 105, 100, 32, 99, 111, 108, 111, 114,
              32, 51, 48, 45, 51, 55]))
        else Except.ok fg
    else Except.ok FgDefault
  match fgChecked with
  | Except.error err => ([], some err)
  | Except.ok fg1 =>
    let bgChecked : Except Error Str :=
      if bg ≠ [] then
        match strconv.Atoi bg with
        | Except.error err => Except.error err
        | Except.ok ibg =>
          if ibg < 40 ∧ ibg > 47 then
            Except.error (Error.new ([66, 103, 58, 32] ++ bg ++
              [110, 111, 116, 32, 97, 32, 118, 97, 108, 105, 100, 32, 99, 111, 108, 111, 114,
                32, 52, 48, 45, 52, 55]))
          else Except.ok bg
      else Except.ok BgDefault
    match bgChecked with
    | Except.error err => ([], some err)
    | Except.ok bg1 => (createColor str fg1 bg1, none)

/-- The function `NewColor256`; the second component is the Go `error`
(`none` for `nil`). -/
def NewColor256 (str : Str) (fg : Str) (bg : Str) : Color × Option Error :=
  let fgChecked : Option Error :=
    if fg ≠ [] then
      match strconv.Atoi fg with
      | Except.error err => some err
      | Except.ok ifg =>
        if ifg < 0 ∧ ifg > 256 then
          some (Error.new ([102, 103, 58, 32] ++ fg ++
            [32, 110, 111, 116, 32, 97, 32, 118, 97, 108, 105, 100, 32, 99, 111, 108, 111,
              114, 32, 48, 45, 50, 53, 54]))
        else none
    else none
  match fgChecked with
  | some err => ([], some err)
  | none =>
    let bgChecked : Option Error :=
      if bg ≠ [] then
        match strconv.Atoi bg with
        | Except.error err => some err
        | Except.ok ibg =>
          if ibg < 0 ∧ ibg > 256 then
            some (Error.new ([98, 103, 58, 32] ++ bg ++
              [32, 110, 111, 116, 32, 97, 32, 118, 97, 108, 105, 100, 32, 99, 111, 108, 111,
                114, 32, 48, 45, 50, 53, 54]))
          else none
      else none
    match bgChecked with
    | some err => ([], some err)
    | none => (start256 ++ fg ++ sep256 ++ bg ++ [endCSI] ++ str ++ eraser256, none)

/-- The function `NewColorRGB`. -/
def NewColorRGB (str : Str) (red green blue : UInt8) : Color :=
  let ired := strconv.Itoa (red.toNat : Int)
  let igreen := strconv.Itoa (green.toNat : Int)
  let iblue := strconv.Itoa (blue.toNat : Int)
  startRGB ++ ired ++ [sepCSI] ++ igreen ++ [sepCSI] ++ iblue ++ [endCSI] ++ str ++ eraser256

/-- The local variables of `NewCombo` that live across the iterations of its
loop; `tracking` is the key set of the map of the same name. -/
structure ComboState where
  col : Bool
  bcol : Bool
  mod : Bool
  first : Bool
  tracking : List Str
  buffer : Str
  deriving DecidableEq, Repr

/-- The end of the loop body of `NewCombo` (lines 689-694), reached when the
`switch` has not executed `continue`. -/
def NewCombo.write (st : ComboState) (m : Str) : ComboState :=
  if st.first then
    { st with first := false, buffer := st.buffer ++ m }
  else
    { st with buffer := st.buffer ++ [sepCSI] ++ m }

/-- The first `case` of the `switch` of `NewCombo`: the foreground tokens. -/
def NewCombo.isFg (m : Str) : Bool :=
  m = FgBlack || m = FgRed || m = FgGreen || m = FgYellow || m = FgBlue || m = FgMagenta ||
    m = FgCyan || m = FgWhite

/-- The second `case` of the `switch` of `NewCombo`: the background tokens. -/
def NewCombo.isBg (m : Str) : Bool :=
  m = BgBlack || m = BgRed || m = BgGreen || m = BgYellow || m = BgBlue || m = BgMagenta ||
    m = BgCyan || m = BgWhite

/-- The third `case` of the `switch` of `NewCombo`: the modifier tokens. -/
def NewCombo.isMod (m : Str) : Bool :=
  m = Bld || m = Faint || m = Ital || m = Underln || m = Blink

/-- The tokens that do not fall into the `default` case of the `switch`. -/
def NewCombo.recognised (m : Str) : Bool :=
  NewCombo.isFg m || NewCombo.isBg m || NewCombo.isMod m

/-- One iteration of the loop of `NewCombo` on the token `m`. -/
def NewCombo.body (st : ComboState) (m : Str) : ComboState :=
  if NewCombo.isFg m then
    if st.col then st else NewCombo.write { st with col := true } m
  else if NewCombo.isBg m then
    if st.bcol then st else NewCombo.write { st with bcol := true } m
  else if NewCombo.isMod m then
    if m ∈ st.tracking then st
    else NewCombo.write { st with tracking := m :: st.tracking, mod := true } m
  else st

/-- The text written between the second `CSI` and the final `m` by `NewCombo`
(lines 699-713). -/
def NewCombo.reset (st : ComboState) : Str :=
  (if st.col then
      FgDefault ++ (if st.bcol then [sepCSI] ++ BgDefault else [])
    else if st.bcol then BgDefault
    else []) ++
  (if st.mod then
      (if st.col || st.bcol then [sepCSI] else []) ++ NoMode
    else [])

/-- The local variables of `NewCombo` when its loop starts (lines 663-667). -/
def NewCombo.init : ComboState :=
  { col := false, bcol := false, mod := false, first := true, tracking := [], buffer := CSI }

/-- The function `NewCombo`; the variadic `mods` is a list of strings. -/
def NewCombo (s : Str) (mods : List Str) : Color :=
  let st := mods.foldl NewCombo.body NewCombo.init
  st.buffer ++ [endCSI] ++ s ++ CSI ++ NewCombo.reset st ++ [endCSI]

/-! ## `Color.String` (`color.go` lines 544-579) -/

/-- The Go slice expression `src[i:j]` on a slice whose capacity equals its
length: `none` stands for the run-time panic on out-of-range bounds. -/
def slice (src : Str) (i j : Nat) : Option Str :=
  if i ≤ j ∧ j ≤ src.length then some ((src.drop i).take (j - i)) else none

/-- The Go index expression `src[i]`: `none` stands for the run-time panic. -/
def index (src : Str) (i : Nat) : Option Byte := src.get? i

/-- The bytes accepted by the first `case` of the inner `switch`
(`'0'` ... `'9'` and `';'`). -/
def legal (b : Byte) : Bool :=
  b = 48 || b = 49 || b = 50 || b = 51 || b = 52 || b = 53 || b = 54 || b = 55 ||
    b = 56 || b = 57 || b = 59

/-- Control points of the disabled branch of `Color.String`: the condition
check of the outer loop `L1` (with the current `i`), and the condition check of
the inner loop (with the saved index `s` and the current `i`). -/
inductive Pc where
  | outer (i : Nat)
  | inner (s i : Nat)
  deriving DecidableEq, Repr

/-- A machine configuration: control point and the buffer `clean`. -/
structure Cfg where
  pc : Pc
  clean : Str
  deriving DecidableEq, Repr

/-- How a call ends: it returns a string, or it panics on an index or slice
expression out of range. -/
inductive Outcome where
  | ret (out : Str)
  | fault
  deriving DecidableEq, Repr

/-- One transition of the disabled branch of `Color.String` on `src`, from a
loop head to the next loop head (or to the end of the call). -/
def step (src : Str) (c : Cfg) : Cfg ⊕ Outcome :=
  match c.pc with
  | Pc.outer i =>
    -- `for ...; i < len(src); ...`
    if i < src.length then
      -- `if len(src) < i+4 { clean = append(clean, src[i:]...); return string(clean) }`
      if src.length < i + 4 then
        match slice src i src.length with
        | none => Sum.inr Outcome.fault
        | some rest => Sum.inr (Outcome.ret (c.clean ++ rest))
      else
        -- `if string(src[i:i+2]) == CSI`
        match slice src i (i + 2) with
        | none => Sum.inr Outcome.fault
        | some w =>
          if w = CSI then
            -- `s := i`, then the inner loop starts with `i += 2`
            Sum.inl ⟨Pc.inner i (i + 2), c.clean⟩
          else
            -- `clean = append(clean, src[i])`, then `i++` of the outer loop
            match index src i with
            | none => Sum.inr Outcome.fault
            | some b => Sum.inl ⟨Pc.outer (i + 1), c.clean ++ [b]⟩
    else
      -- `return string(clean)` after the loop
      Sum.inr (Outcome.ret c.clean)
  | Pc.inner s i =>
    -- `for ...; i < len(src); ...`
    if i < src.length then
      match index src i with
      | none => Sum.inr Outcome.fault
      | some b =>
        if legal b then
          -- `continue`: `i++` of the inner loop
          Sum.inl ⟨Pc.inner s (i + 1), c.clean⟩
        else if b = endCSI then
          -- `continue L1`: `i++` of the outer loop
          Sum.inl ⟨Pc.outer (i + 1), c.clean⟩
        else
          -- `i = s`; the `switch` ends and the inner loop goes on with `i++`
          Sum.inl ⟨Pc.inner s (s + 1), c.clean⟩
    else
      -- the inner loop is left; `clean = append(clean, src[i])`, then `i++`
      match index src i with
      | none => Sum.inr Outcome.fault
      | some b => Sum.inl ⟨Pc.outer (i + 1), c.clean ++ [b]⟩

/-- Runs the machine for at most `fuel` transitions; `none` means that the
call has not ended within the budget. -/
def run (src : Str) : Nat → Cfg → Option Outcome
  | 0, _ => none
  | fuel + 1, c =>
    match step src c with
    | Sum.inl c' => run src fuel c'
    | Sum.inr o => some o

/-- The method `func (c Color) String() string`, with the global `colorEnable`
as first argument and a step budget for the loops of the disabled branch. -/
def Color.String (colorEnable : Bool) (c : Color) (fuel : Nat) : Option Outcome :=
  if !colorEnable then
    run c fuel ⟨Pc.outer 0, []⟩
  else
    some (Outcome.ret c)

/-- The method returns `out` for every sufficient step budget. -/
def Color.Returns (colorEnable : Bool) (c : Color) (out : Str) : Prop :=
  ∃ n, ∀ m, n ≤ m → Color.String colorEnable c m = some (Outcome.ret out)

/-- The method panics (index out of range) for every sufficient step budget. -/
def Color.Panics (colorEnable : Bool) (c : Color) : Prop :=
  ∃ n, ∀ m, n ≤ m → Color.String colorEnable c m = some Outcome.fault

/-- The method never ends, whatever the step budget. -/
def Color.Diverges (colorEnable : Bool) (c : Color) : Prop :=
  ∀ n, Color.String colorEnable c n = none

/-! ## `TestTerm` (`color.go` lines 718-758) -/

/-- One `res += ...` of `TestTerm`: a string literal, or the rendering of the
value returned by a call of `NewColor` or `NewColor256` with the arguments
recorded here (the error of the call is discarded by the source). -/
inductive TestTerm.Piece where
  | lit (s : Str)
  | color (str fg bg : Str)
  | color256 (str fg bg : Str)
  deriving DecidableEq, Repr

/-- The appends to `res` that the loops of `TestTerm` perform, in order.  The
variable `base` of the cube loops is carried next to the appends. -/
def TestTerm.script : List TestTerm.Piece :=
  -- `res := "Standard 8:\n"`, `res += "Fg:\t"`
  let s0 : List TestTerm.Piece :=
    [TestTerm.Piece.lit [83, 116, 97, 110, 100, 97, 114, 100, 32, 56, 58, 10],
      TestTerm.Piece.lit [70, 103, 58, 9]]
  -- `for c := 30; c < 38; c++`
  let s1 := (List.range' 30 8).foldl
    (fun acc c => acc ++ [TestTerm.Piece.color [35] (strconv.Itoa (c : Int)) []]) s0
  -- `res += "\nBg:\t"`
  let s2 := s1 ++ [TestTerm.Piece.lit [10, 66, 103, 58, 9]]
  -- `for c := 40; c < 48; c++`
  let s3 := (List.range' 40 8).foldl
    (fun acc c => acc ++ [TestTerm.Piece.color [32] [] (strconv.Itoa (c : Int))]) s2
  -- `res += "\nStandard 16:\t"`
  let s4 := s3 ++ [TestTerm.Piece.lit [10, 83, 116, 97, 110, 100, 97, 114, 100, 32, 49, 54, 58, 9]]
  -- `for c := 0; c < 16; c++`
  let s5 := (List.range' 0 16).foldl
    (fun acc c => acc ++ [TestTerm.Piece.color256 [32] [] (strconv.Itoa (c : Int))]) s4
  -- `res += "\n"`, `res += "256 Col:\n"`
  let s6 := s5 ++ [TestTerm.Piece.lit [10]] ++
    [TestTerm.Piece.lit [50, 53, 54, 32, 67, 111, 108, 58, 10]]
  -- `for row, base := 1, 0; row <= 6; row++`
  let s7 := (List.range' 1 6).foldl
    (fun acc row =>
      -- `base = (row * 6) + 9`
      let base := row * 6 + 9
      -- `for cubes := 1; cubes <= 6; cubes++`
      let cubesLoop := (List.range' 1 6).foldl
        (fun (st : List TestTerm.Piece × Nat) _cubes =>
          -- `for column := 1; column <= 6; column++`, then `base += 36`
          ((List.range' 1 6).foldl
            (fun a column =>
              a ++ [TestTerm.Piece.color256 [32] [] (strconv.Itoa ((st.2 + column : Nat) : Int))])
            st.1, st.2 + 36))
        (acc, base)
      -- `res += "\n"`
      cubesLoop.1 ++ [TestTerm.Piece.lit [10]]) s6
  -- `res += "Grayscales:\n"`
  let s8 := s7 ++ [TestTerm.Piece.lit [71, 114, 97, 121, 115, 99, 97, 108, 101, 115, 58, 10]]
  -- `for c := 232; c <= 255; c++`
  (List.range' 232 24).foldl
    (fun acc c => acc ++ [TestTerm.Piece.color256 [32] [] (strconv.Itoa (c : Int))]) s8

/-- The value and the error returned by the call recorded in a piece. -/
def TestTerm.Piece.call : TestTerm.Piece → Option (Color × Option Error)
  | TestTerm.Piece.lit _ => none
  | TestTerm.Piece.color str fg bg => some (NewColor str fg bg)
  | TestTerm.Piece.color256 str fg bg => some (NewColor256 str fg bg)

/-- The string a piece appends to `res`: the literal, or `tres.String()` for
the value of the call; `none` when `String` does not return within the step
budget or panics. -/
def TestTerm.Piece.text (colorEnable : Bool) (fuel : Nat) (p : TestTerm.Piece) : Option Str :=
  match p with
  | TestTerm.Piece.lit s => some s
  | _ =>
    match p.call with
    | none => none
    | some r =>
      match Color.String colorEnable r.1 fuel with
      | some (Outcome.ret out) => some out
      | _ => none

/-- The function `TestTerm`, with the global `colorEnable` and a step budget
for each call of `Color.String`. -/
def TestTerm (colorEnable : Bool) (fuel : Nat) : Option Str :=
  TestTerm.script.foldl
    (fun res p => res.bind (fun r => (p.text colorEnable fuel).map (fun t => r ++ t)))
    (some [])

/-! ## Behaviour of the machine

`Sem src c r` says how the run from configuration `c` ends: `some o` when it
ends with outcome `o` for every sufficient budget, `none` when it never ends. -/

/-- Behaviour of the run that starts in configuration `c`. -/
def Sem (src : Str) (c : Cfg) : Option Outcome → Prop
  | some o => ∃ n, ∀ m, n ≤ m → run src m c = some o
  | none => ∀ n, run src n c = none

/-- Puts `l` in front of a returned string. -/
def Outcome.prepend (l : Str) : Outcome → Outcome
  | Outcome.ret out => Outcome.ret (l ++ out)
  | Outcome.fault => Outcome.fault

/-! ### Big-step description of the scan -/

/-- What the outer loop does with the part of `src` it has not visited yet,
when `clean` is empty: `some (ret out)` and `some fault` are the two ways to
end, `none` is non-termination. -/
inductive Strip : Str → Option Outcome → Prop
  | done : Strip [] (some (Outcome.ret []))
  | short (l : Str) : l ≠ [] → l.length < 4 → Strip l (some (Outcome.ret l))
  | copy (a b : Byte) (rest : Str) (r : Option Outcome) :
      2 ≤ rest.length → ¬ (a = 27 ∧ b = 91) → Strip (b :: rest) r →
      Strip (a :: b :: rest) (r.map (Outcome.prepend [a]))
  | mode (p rest : Str) (r : Option Outcome) :
      (∀ b ∈ p, legal b = true) → 1 ≤ p.length + rest.length → Strip rest r →
      Strip (27 :: 91 :: (p ++ 109 :: rest)) r
  | eof (p : Str) :
      (∀ b ∈ p, legal b = true) → 2 ≤ p.length → Strip (27 :: 91 :: p) (some Outcome.fault)
  | bad (p : Str) (b : Byte) (rest : Str) :
      (∀ x ∈ p, legal x = true) → legal b = false → b ≠ endCSI →
      1 ≤ p.length + rest.length → Strip (27 :: 91 :: (p ++ b :: rest)) none

/-! ## Well-formed styled text

The grammar of the strings the constructors build: runs of text without the
byte `ESC`, and sequences `ESC [ (digit | ;)* m`. -/

/-- A piece of a well-formed styled string. -/
inductive Seg where
  | text (t : Str)
  | sgr (p : Str)
  deriving DecidableEq, Repr

/-- The bytes of a piece. -/
def Seg.bytes : Seg → Str
  | Seg.text t => t
  | Seg.sgr p => 27 :: 91 :: (p ++ [109])

/-- A text run has no `ESC`; the parameters of a sequence are legal bytes. -/
def Seg.ok : Seg → Prop
  | Seg.text t => 27 ∉ t
  | Seg.sgr p => ∀ b ∈ p, legal b = true

/-- The string made of the pieces, in order. -/
def Seg.render : List Seg → Str
  | [] => []
  | sg :: rest => sg.bytes ++ Seg.render rest

/-- The text runs of the pieces, in order; a bare `ESC [ m` at the very end
of the string is kept. -/
def Seg.plain : List Seg → Str
  | [] => []
  | Seg.text t :: rest => t ++ Seg.plain rest
  | Seg.sgr p :: rest =>
    if p = [] ∧ Seg.render rest = [] then [27, 91, 109] else Seg.plain rest

/-! ## Invariant of the loop of `NewCombo` -/

/-- After the tokens seen so far: the buffer is `CSI` followed by legal bytes,
a non-empty `tracking` set comes with `mod`, and one of the three flags is set
exactly when a recognised token has been seen (`seen`). -/
def NewCombo.Inv (seen : Bool) (st : ComboState) : Prop :=
  (∃ P : Str, st.buffer = 27 :: 91 :: P ∧ ∀ b ∈ P, legal b = true) ∧
  (st.tracking ≠ [] → st.mod = true) ∧
  (st.col || st.bcol || st.mod) = seen

/-! ## Decimal text -/

/-- The string `d` is the decimal text of `n`: not empty, made of digits whose
value is `n`, and without a leading zero unless it is the single digit `0`. -/
def IsDecimal (d : Str) (n : Nat) : Prop :=
  d ≠ [] ∧ (d.head? = some 48 → d = [48]) ∧ (∀ b ∈ d, 48 ≤ b ∧ b ≤ 57) ∧
    d.foldl (fun acc b => acc * 10 + (b.toNat - 48)) 0 = n

instance (d : Str) (n : Nat) : Decidable (IsDecimal d n) := by
  unfold IsDecimal
  infer_instance

/-! ## The named types and their byte variants, as tables -/

/-- The `String` methods of the twenty named colour and modifier types, each
with the mode code and the reset code it passes to `colConcat`. -/
def stringMethods : List ((Bool → Str → Str) × Str × Str) :=
  [(Green.String, FgGreen, FgDefault), (Blue.String, FgBlue, FgDefault),
    (Red.String, FgRed, FgDefault), (Yellow.String, FgYellow, FgDefault),
    (Magenta.String, FgMagenta, FgDefault), (White.String, FgWhite, FgDefault),
    (Black.String, FgBlack, FgDefault), (Cyan.String, FgCyan, FgDefault),
    (BGreen.String, BgGreen, BgDefault), (BBlue.String, BgBlue, BgDefault),
    (BRed.String, BgRed, BgDefault), (BYellow.String, BgYellow, BgDefault),
    (BMagenta.String, BgMagenta, BgDefault), (BWhite.String, BgWhite, BgDefault),
    (BBlack.String, BgBlack, BgDefault), (BCyan.String, BgCyan, BgDefault),
    (Blinking.String, Blink, NoMode), (Underline.String, Underln, NoMode),
    (Bold.String, Bld, NoMode), (Italic.String, Ital, NoMode)]

/-- The twenty byte variants, each with the `String` method of the same type
and the mode code and reset code of that type. -/
def byteVariants : List ((Bool → Str → Str) × (Bool → Str → Str) × Str × Str) :=
  [(GreenByte, Green.String, FgGreen, FgDefault),
    (BlueByte, Blue.String, FgBlue, FgDefault),
    (RedByte, Red.String, FgRed, FgDefault),
    (YellowByte, Yellow.String, FgYellow, FgDefault),
    (MagentaByte, Magenta.String, FgMagenta, FgDefault),
    (WhiteByte, White.String, FgWhite, FgDefault),
    (BlackByte, Black.String, FgBlack, FgDefault),
    (CyanByte, Cyan.String, FgCyan, FgDefault),
    (BGreenByte, BGreen.String, BgGreen, BgDefault),
    (BBlueByte, BBlue.String, BgBlue, BgDefault),
    (BRedByte, BRed.String, BgRed, BgDefault),
    (BYellowGreenByte, BYellow.String, BgYellow, BgDefault),
    (BMagentaByte, BMagenta.String, BgMagenta, BgDefault),
    (BWhiteByte, BWhite.String, BgWhite, BgDefault),
    (BBlackByte, BBlack.String, BgBlack, BgDefault),
    (BCyanByte, BCyan.String, BgCyan, BgDefault),
    (BlinkingByte, Blinking.String, Blink, NoMode),
    (UnderlineByte, Underline.String, Underln, NoMode),
    (BoldByte, Bold.String, Bld, NoMode), (ItalicByte, Italic.String, Ital, NoMode)]

/-! ## Calls of the package, as transformers of the package variables -/

/-- A call of a function of the package.  `render` stands for any function
that reads `colorEnable` (the `String` methods, the byte variants and
`Color.String`), `construct` for the constructors `NewColor`, `NewColor256`,
`NewColorRGB` and `NewCombo`, which do not mention the variable. -/
inductive Call where
  | ColorEnable
  | ColorDisable
  | render
  | construct
  deriving DecidableEq, Repr

/-- The package variables after a call: only the bodies of `ColorEnable` and
`ColorDisable` assign `colorEnable`. -/
def Call.exec : Call → Globals → Globals
  | Call.ColorEnable, g => Term.ColorEnable g
  | Call.ColorDisable, g => Term.ColorDisable g
  | Call.render, g => g
  | Call.construct, g => g

/-- The package variables after a sequence of calls, first call first. -/
def Call.execAll (cs : List Call) (g : Globals) : Globals :=
  cs.foldl (fun st c => c.exec st) g

/-- The value set by the last toggle of a sequence of calls, if there is one. -/
def Call.lastToggle : List Call → Option Bool
  | [] => none
  | c :: rest =>
    match Call.lastToggle rest with
    | some v => some v
    | none =>
      match c with
      | Call.ColorEnable => some true
      | Call.ColorDisable => some false
      | _ => none

/-! ## Description of the combination builder in the words of the specification -/

/-- The strings of `xs` joined with `sep` between neighbours. -/
def joinWith (sep : Str) : List Str → Str
  | [] => []
  | [x] => x
  | x :: y :: rest => x ++ sep ++ joinWith sep (y :: rest)

/-- The elements `m` of a list that satisfy `keep before m`, where `before` is
the part of the whole list in front of `m`. -/
def keepFrom (keep : List Str → Str → Bool) (before : List Str) : List Str → List Str
  | [] => []
  | m :: rest =>
    if keep before m then m :: keepFrom keep (before ++ [m]) rest
    else keepFrom keep (before ++ [m]) rest

/-- A token is honoured when it is the first foreground token, the first
background token, or the first occurrence of a modifier token. -/
def NewCombo.keeps (before : List Str) (m : Str) : Bool :=
  (NewCombo.isFg m && !before.any NewCombo.isFg) ||
    (NewCombo.isBg m && !before.any NewCombo.isBg) ||
    (NewCombo.isMod m && !before.contains m)

/-- The honoured tokens of `mods`, in argument order. -/
def NewCombo.honored (mods : List Str) : List Str :=
  keepFrom NewCombo.keeps [] mods

/-- The list `mods` without the foreground tokens after the first foreground
token and without the background tokens after the first background token. -/
def NewCombo.dropLaterColours (mods : List Str) : List Str :=
  keepFrom (fun before m =>
    !((NewCombo.isFg m && before.any NewCombo.isFg) ||
      (NewCombo.isBg m && before.any NewCombo.isBg))) [] mods

/-- The list `mods` without the later repeats of modifier tokens. -/
def NewCombo.dropRepeatedMods (mods : List Str) : List Str :=
  keepFrom (fun before m => !(NewCombo.isMod m && before.contains m)) [] mods

/-! ## The attribute tokens, as the specification lists them -/

/-- The foreground colour tokens: the decimal texts `30` ... `37`. -/
def foregroundTokens : List Str :=
  [[51, 48], [51, 49], [51, 50], [51, 51], [51, 52], [51, 53], [51, 54], [51, 55]]

/-- The background colour tokens: the decimal texts `40` ... `47`. -/
def backgroundTokens : List Str :=
  [[52, 48], [52, 49], [52, 50], [52, 51], [52, 52], [52, 53], [52, 54], [52, 55]]

/-- The modifier tokens: the decimal texts `1` ... `5`. -/
def modifierTokens : List Str := [[49], [50], [51], [52], [53]]

/-- The twenty-one attribute tokens. -/
def attributeTokens : List Str := foregroundTokens ++ backgroundTokens ++ modifierTokens

/-- Membership in `foregroundTokens`, as a Boolean. -/
def isForegroundToken (m : Str) : Bool := decide (m ∈ foregroundTokens)

/-- Membership in `backgroundTokens`, as a Boolean. -/
def isBackgroundToken (m : Str) : Bool := decide (m ∈ backgroundTokens)

/-- Membership in `modifierTokens`, as a Boolean. -/
def isModifierToken (m : Str) : Bool := decide (m ∈ modifierTokens)

/-- A token is honoured when it is the first foreground token, the first
background token, or the first occurrence of a modifier token; `before` holds
the tokens in front of it. -/
def honouredHere (before : List Str) (m : Str) : Bool :=
  (isForegroundToken m && !before.any isForegroundToken) ||
    (isBackgroundToken m && !before.any isBackgroundToken) ||
    (isModifierToken m && !before.contains m)

/-- The honoured tokens of `mods`, in argument order. -/
def honouredTokens (mods : List Str) : List Str :=
  keepFrom honouredHere [] mods

/-- The list `mods` without the foreground tokens after the first foreground
token and without the background tokens after the first background token. -/
def withoutLaterColours (mods : List Str) : List Str :=
  keepFrom (fun before m =>
    !((isForegroundToken m && before.any isForegroundToken) ||
      (isBackgroundToken m && before.any isBackgroundToken))) [] mods

/-- The reset codes of the epilogue: `39` after a foreground token, then `49`
after a background token, then `0` after a modifier token. -/
def NewCombo.resets (hon : List Str) : List Str :=
  (if hon.any NewCombo.isFg then [FgDefault] else []) ++
  (if hon.any NewCombo.isBg then [BgDefault] else []) ++
  (if hon.any NewCombo.isMod then [NoMode] else [])

/-- A parameter text without stray separators: it neither starts nor ends
with `;` and has no two `;` in a row. -/
def Tidy (P : Str) : Prop :=
  (∀ b ∈ P.head?, b ≠ 59) ∧ (∀ b ∈ P.getLast?, b ≠ 59) ∧
    List.Chain' (fun x y : Byte => ¬ (x = 59 ∧ y = 59)) P

/-- The loop of `NewCombo` after the tokens `before`: the flags, the set
`tracking` and the buffer in terms of the tokens seen. -/
def NewCombo.LoopInv (before : List Str) (st : ComboState) : Prop :=
  st.col = before.any NewCombo.isFg ∧ st.bcol = before.any NewCombo.isBg ∧
  st.mod = before.any NewCombo.isMod ∧
  (∀ m, NewCombo.isMod m = true → (m ∈ st.tracking ↔ m ∈ before)) ∧
  st.first = (NewCombo.honored before).isEmpty ∧
  st.buffer = CSI ++ joinWith [sepCSI] (NewCombo.honored before)

/-- The text runs of the pieces of a well-formed string, in order. -/
def Seg.texts : List Seg → Str
  | [] => []
  | Seg.text t :: rest => t ++ Seg.texts rest
  | Seg.sgr _ :: rest => Seg.texts rest

/-! ## The palette indices of `TestTerm`, in the words of the specification -/

/-- The background arguments of the `NewColor256` calls of `TestTerm`, in order. -/
def TestTerm.bgs256 : List Str :=
  TestTerm.script.filterMap (fun p =>
    match p with
    | TestTerm.Piece.color256 _ _ bg => some bg
    | _ => none)

/-- The cube indices: `base + column` for `row`, `cube` and `column` in 1..6,
with `base = row * 6 + 9` increased by 36 per cube. -/
def TestTerm.cubeIndices : List Nat :=
  (List.range' 1 6).flatMap (fun row =>
    (List.range' 1 6).flatMap (fun cube =>
      (List.range' 1 6).map (fun column => (row * 6 + 9 + 36 * (cube - 1)) + column)))

/-- The indices 0..15, then the cube indices, then 232..255. -/
def TestTerm.indices : List Nat :=
  List.range' 0 16 ++ TestTerm.cubeIndices ++ List.range' 232 24

/-- The swatch of palette index `k`: `ESC[38;5;;48;5;<k>m`, a space and
`ESC[39;5;49;5;m`. -/
def TestTerm.swatch256 (k : Nat) : Str :=
  [27, 91, 51, 56, 59, 53, 59, 59, 52, 56, 59, 53, 59] ++ strconv.Itoa (k : Int) ++ [109, 32] ++
    [27, 91, 51, 57, 59, 53, 59, 52, 57, 59, 53, 59, 109]

/-- The swatch of foreground code `k`: `ESC[<k>;49m`, the sign `#` and
`ESC[39;49m`. -/
def TestTerm.swatchFg (k : Nat) : Str :=
  [27, 91] ++ strconv.Itoa (k : Int) ++ [59, 52, 57, 109, 35] ++
    [27, 91, 51, 57, 59, 52, 57, 109]

/-- The swatch of background code `k`: `ESC[39;<k>m`, a space and
`ESC[39;49m`. -/
def TestTerm.swatchBg (k : Nat) : Str :=
  [27, 91, 51, 57, 59] ++ strconv.Itoa (k : Int) ++ [109, 32] ++
    [27, 91, 51, 57, 59, 52, 57, 109]

/-- The pieces of the self-test with colours enabled, in order: the headings,
the eight foreground and eight background swatches, the swatches of 0..15, six
rows of thirty-six cube swatches each closed by a line feed, and the swatches
of 232..255. -/
def TestTerm.styledPieces : List Str :=
  [[83, 116, 97, 110, 100, 97, 114, 100, 32, 56, 58, 10], [70, 103, 58, 9]] ++
  (List.range' 30 8).map TestTerm.swatchFg ++ [[10, 66, 103, 58, 9]] ++
  (List.range' 40 8).map TestTerm.swatchBg ++
  [[10, 83, 116, 97, 110, 100, 97, 114, 100, 32, 49, 54, 58, 9]] ++
  (List.range' 0 16).map TestTerm.swatch256 ++ [[10]] ++
  [[50, 53, 54, 32, 67, 111, 108, 58, 10]] ++
  (List.range' 1 6).flatMap (fun row =>
    (List.range' 1 6).flatMap (fun cube =>
      (List.range' 1 6).map (fun column =>
        TestTerm.swatch256 ((row * 6 + 9 + 36 * (cube - 1)) + column))) ++ [[10]]) ++
  [[71, 114, 97, 121, 115, 99, 97, 108, 101, 115, 58, 10]] ++
  (List.range' 232 24).map TestTerm.swatch256

/-- The text of the self-test with colours enabled. -/
def TestTerm.styled : Str := TestTerm.styledPieces.flatten

/-- The pieces of the self-test with colours disabled, in order: the headings,
eight `#`, eight spaces, sixteen spaces, six rows of thirty-six spaces each
closed by a line feed, and twenty-four spaces. -/
def TestTerm.plainPieces : List Str :=
  [[83, 116, 97, 110, 100, 97, 114, 100, 32, 56, 58, 10], [70, 103, 58, 9]] ++
  List.replicate 8 [35] ++ [[10, 66, 103, 58, 9]] ++ List.replicate 8 [32] ++
  [[10, 83, 116, 97, 110, 100, 97, 114, 100, 32, 49, 54, 58, 9]] ++ List.replicate 16 [32] ++
  [[10]] ++ [[50, 53, 54, 32, 67, 111, 108, 58, 10]] ++
  (List.range' 1 6).flatMap (fun _ => List.replicate 36 [32] ++ [[10]]) ++
  [[71, 114, 97, 121, 115, 99, 97, 108, 101, 115, 58, 10]] ++ List.replicate 24 [32]

/-- The text of the self-test with colours disabled: the headings, eight `#`,
eight spaces, sixteen spaces, six rows of thirty-six spaces and twenty-four
spaces. -/
def TestTerm.plain : Str :=
  [83, 116, 97, 110, 100, 97, 114, 100, 32, 56, 58, 10] ++ [70, 103, 58, 9] ++
  List.replicate 8 35 ++ [10, 66, 103, 58, 9] ++ List.replicate 8 32 ++
  [10, 83, 116, 97, 110, 100, 97, 114, 100, 32, 49, 54, 58, 9] ++ List.replicate 16 32 ++
  [10] ++ [50, 53, 54, 32, 67, 111, 108, 58, 10] ++
  (List.range' 1 6).flatMap (fun _ => List.replicate 36 32 ++ [10]) ++
  [71, 114, 97, 121, 115, 99, 97, 108, 101, 115, 58, 10] ++ List.replicate 24 32

/-! ## Lemmas on the machine -/

theorem run_succ_inl {src : Str} {c c' : Cfg} (h : step src c = Sum.inl c') (n : Nat) :
    run src (n + 1) c = run src n c' := by
  simp [run, h]

theorem run_succ_inr {src : Str} {c : Cfg} {o : Outcome} (h : step src c = Sum.inr o)
    (n : Nat) : run src (n + 1) c = some o := by
  simp [run, h]

theorem run_mono {src : Str} {o : Outcome} :
    ∀ (n m : Nat) (c : Cfg), run src n c = some o → n ≤ m → run src m c = some o := by
  intro n
  induction n with
  | zero => intro m c h; simp [run] at h
  | succ n ih =>
    intro m c h hm
    obtain ⟨k, rfl⟩ : ∃ k, m = k + 1 := ⟨m - 1, by omega⟩
    cases hs : step src c with
    | inl c' =>
      rw [run_succ_inl hs] at h ⊢
      exact ih k c' h (by omega)
    | inr o' =>
      rw [run_succ_inr hs] at h ⊢
      exact h

theorem sem_step {src : Str} {c c' : Cfg} {r : Option Outcome}
    (h : step src c = Sum.inl c') (hr : Sem src c' r) : Sem src c r := by
  cases r with
  | none =>
    intro n
    cases n with
    | zero => rfl
    | succ n => rw [run_succ_inl h]; exact hr n
  | some o =>
    obtain ⟨n, hn⟩ := hr
    refine ⟨n + 1, fun m hm => ?_⟩
    obtain ⟨k, rfl⟩ : ∃ k, m = k + 1 := ⟨m - 1, by omega⟩
    rw [run_succ_inl h]
    exact hn k (by omega)

theorem sem_done {src : Str} {c : Cfg} {o : Outcome}
    (h : step src c = Sum.inr o) : Sem src c (some o) := by
  refine ⟨1, fun m hm => ?_⟩
  obtain ⟨k, rfl⟩ : ∃ k, m = k + 1 := ⟨m - 1, by omega⟩
  exact run_succ_inr h k

theorem sem_loop {src : Str} {c : Cfg} (h : step src c = Sum.inl c) : Sem src c none := by
  intro n
  induction n with
  | zero => rfl
  | succ n ih => rw [run_succ_inl h]; exact ih

/-- A run has at most one behaviour. -/
theorem sem_unique {src : Str} {c : Cfg} {r r' : Option Outcome}
    (h : Sem src c r) (h' : Sem src c r') : r = r' := by
  cases r with
  | none =>
    cases r' with
    | none => rfl
    | some o' =>
      obtain ⟨n, hn⟩ := h'
      have := hn n (le_refl n)
      rw [h n] at this
      cases this
  | some o =>
    cases r' with
    | none =>
      obtain ⟨n, hn⟩ := h
      have := hn n (le_refl n)
      rw [h' n] at this
      cases this
    | some o' =>
      obtain ⟨n, hn⟩ := h
      obtain ⟨n', hn'⟩ := h'
      have h1 := hn (max n n') (le_max_left _ _)
      have h2 := hn' (max n n') (le_max_right _ _)
      rw [h1] at h2
      exact h2

/-! ### Single transitions, with `src` split at the current index -/

theorem index_append (pre rest : Str) : index (pre ++ rest) pre.length = rest.head? := by
  simp only [index, List.get?_eq_getElem?]
  rw [List.getElem?_append_right (le_refl _)]
  cases rest <;> simp

theorem slice_append_two (pre : Str) (a b : Byte) (rest : Str) :
    slice (pre ++ a :: b :: rest) pre.length (pre.length + 2) = some [a, b] := by
  simp [slice]

theorem slice_append_all (pre rest : Str) :
    slice (pre ++ rest) pre.length (pre ++ rest).length = some rest := by
  simp [slice]

theorem step_outer_end (pre clean : Str) :
    step pre ⟨Pc.outer pre.length, clean⟩ = Sum.inr (Outcome.ret clean) := by
  simp [step]

theorem step_outer_short (pre rest clean : Str) (h0 : rest ≠ []) (h : rest.length < 4) :
    step (pre ++ rest) ⟨Pc.outer pre.length, clean⟩ = Sum.inr (Outcome.ret (clean ++ rest)) := by
  have hpos : 0 < rest.length := List.length_pos.mpr h0
  have hs := slice_append_all pre rest
  simp only [List.length_append] at hs
  simp [step, hpos, h, hs]

theorem step_outer_csi (pre rest clean : Str) (h : 2 ≤ rest.length) :
    step (pre ++ 27 :: 91 :: rest) ⟨Pc.outer pre.length, clean⟩ =
      Sum.inl ⟨Pc.inner pre.length (pre.length + 2), clean⟩ := by
  have hs := slice_append_two pre 27 91 rest
  simp [step, hs, CSI]
  omega

theorem step_outer_copy (pre : Str) (a b : Byte) (rest clean : Str) (h : 2 ≤ rest.length)
    (hne : ¬ (a = 27 ∧ b = 91)) :
    step (pre ++ a :: b :: rest) ⟨Pc.outer pre.length, clean⟩ =
      Sum.inl ⟨Pc.outer (pre.length + 1), clean ++ [a]⟩ := by
  have hs := slice_append_two pre a b rest
  have hi := index_append pre (a :: b :: rest)
  have hlen : ¬ (rest.length + 1 + 1 < 4) := by omega
  simp [step, hs, hi, CSI, hlen, hne]

theorem step_inner_legal (s : Nat) (pre : Str) (b : Byte) (rest clean : Str)
    (hb : legal b = true) :
    step (pre ++ b :: rest) ⟨Pc.inner s pre.length, clean⟩ =
      Sum.inl ⟨Pc.inner s (pre.length + 1), clean⟩ := by
  have hi := index_append pre (b :: rest)
  simp [step, hi, hb]

theorem step_inner_end (s : Nat) (pre : Str) (b : Byte) (rest clean : Str)
    (hb : legal b = false) (hm : b = endCSI) :
    step (pre ++ b :: rest) ⟨Pc.inner s pre.length, clean⟩ =
      Sum.inl ⟨Pc.outer (pre.length + 1), clean⟩ := by
  subst hm
  have hi := index_append pre (endCSI :: rest)
  simp [step, hi, hb]

theorem step_inner_reset (s : Nat) (pre : Str) (b : Byte) (rest clean : Str)
    (hb : legal b = false) (hm : b ≠ endCSI) :
    step (pre ++ b :: rest) ⟨Pc.inner s pre.length, clean⟩ =
      Sum.inl ⟨Pc.inner s (s + 1), clean⟩ := by
  have hi := index_append pre (b :: rest)
  simp [step, hi, hb, hm]

theorem step_inner_eof (s : Nat) (pre clean : Str) :
    step pre ⟨Pc.inner s pre.length, clean⟩ = Sum.inr Outcome.fault := by
  simp [step, index]

/-! ### The inner loop -/

/-- The inner loop runs over a block of legal bytes. -/
theorem sem_inner_skip (s : Nat) (clean : Str) (r : Option Outcome) :
    ∀ (p A B : Str), (∀ b ∈ p, legal b = true) →
      Sem (A ++ (p ++ B)) ⟨Pc.inner s (A.length + p.length), clean⟩ r →
      Sem (A ++ (p ++ B)) ⟨Pc.inner s A.length, clean⟩ r := by
  intro p
  induction p with
  | nil => intro A B _ h; simpa using h
  | cons b p ih =>
    intro A B hp h
    have hb : legal b = true := hp b (List.mem_cons_self _ _)
    have hp' : ∀ x ∈ p, legal x = true := fun x hx => hp x (List.mem_cons_of_mem _ hx)
    have hst := step_inner_legal s A b (p ++ B) clean hb
    have e1 : A ++ (b :: p ++ B) = (A ++ [b]) ++ (p ++ B) := by simp
    have e2 : A.length + (b :: p).length = (A ++ [b]).length + p.length := by
      simp; omega
    have e3 : A.length + 1 = (A ++ [b]).length := by simp
    have hst' : step (A ++ (b :: p ++ B)) ⟨Pc.inner s A.length, clean⟩ =
        Sum.inl ⟨Pc.inner s (A.length + 1), clean⟩ := by simpa using hst
    refine sem_step hst' ?_
    rw [e1, e3]
    apply ih (A ++ [b]) B hp'
    rw [← e1, ← e2]
    exact h

/-- Once the inner loop has been reset to the saved index, it stays at the byte
`[` that follows the saved `ESC` for ever. -/
theorem sem_inner_stuck (pre rest clean : Str) :
    Sem (pre ++ 27 :: 91 :: rest) ⟨Pc.inner pre.length (pre.length + 1), clean⟩ none := by
  have hst := step_inner_reset pre.length (pre ++ [27]) 91 rest clean (by decide) (by decide)
  have e1 : (pre ++ [27]) ++ 91 :: rest = pre ++ 27 :: 91 :: rest := by simp
  have e2 : (pre ++ [27]).length = pre.length + 1 := by simp
  rw [e1, e2] at hst
  exact sem_loop hst

theorem Outcome.prepend_nil (o : Outcome) : Outcome.prepend [] o = o := by
  cases o <;> simp [Outcome.prepend]

theorem Outcome.prepend_prepend (l l' : Str) (o : Outcome) :
    Outcome.prepend l (Outcome.prepend l' o) = Outcome.prepend (l ++ l') o := by
  cases o <;> simp [Outcome.prepend]

theorem map_prepend_nil (r : Option Outcome) : r.map (Outcome.prepend []) = r := by
  cases r <;> simp [Outcome.prepend_nil]

theorem map_prepend_prepend (l l' : Str) (r : Option Outcome) :
    (r.map (Outcome.prepend l')).map (Outcome.prepend l) = r.map (Outcome.prepend (l ++ l')) := by
  cases r <;> simp [Outcome.prepend_prepend]

/-- The machine does what `Strip` says. -/
theorem sem_of_strip {rest : Str} {r : Option Outcome} (h : Strip rest r) :
    ∀ (pre clean : Str),
      Sem (pre ++ rest) ⟨Pc.outer pre.length, clean⟩ (r.map (Outcome.prepend clean)) := by
  induction h with
  | done =>
    intro pre clean
    have := sem_done (step_outer_end pre clean)
    simpa [Outcome.prepend] using this
  | short l h0 hl =>
    intro pre clean
    have := sem_done (step_outer_short pre l clean h0 hl)
    simpa [Outcome.prepend] using this
  | copy a b rest r hlen hne _ ih =>
    intro pre clean
    have hst := step_outer_copy pre a b rest clean hlen hne
    refine sem_step hst ?_
    have := ih (pre ++ [a]) (clean ++ [a])
    rw [map_prepend_prepend]
    simpa using this
  | mode p rest r hp hlen _ ih =>
    intro pre clean
    have hst := step_outer_csi pre (p ++ 109 :: rest) clean (by simp; omega)
    refine sem_step hst ?_
    have e0 : pre ++ 27 :: 91 :: (p ++ 109 :: rest) = (pre ++ [27, 91]) ++ (p ++ 109 :: rest) := by
      simp
    have e1 : pre.length + 2 = (pre ++ [27, 91]).length := by simp
    rw [e0, e1]
    apply sem_inner_skip _ _ _ p _ _ hp
    have e2 : (pre ++ [27, 91]) ++ (p ++ 109 :: rest) = (pre ++ [27, 91] ++ p) ++ 109 :: rest := by
      simp
    have e3 : (pre ++ [27, 91]).length + p.length = (pre ++ [27, 91] ++ p).length := by
      simp only [List.length_append]
    rw [e2, e3]
    refine sem_step (step_inner_end _ _ 109 rest clean (by decide) (by decide)) ?_
    have := ih (pre ++ [27, 91] ++ p ++ [109]) clean
    simpa using this
  | eof p hp hlen =>
    intro pre clean
    have hst := step_outer_csi pre p clean hlen
    refine sem_step hst ?_
    have e0 : pre ++ 27 :: 91 :: p = (pre ++ [27, 91]) ++ (p ++ []) := by simp
    have e1 : pre.length + 2 = (pre ++ [27, 91]).length := by simp
    rw [e0, e1]
    apply sem_inner_skip _ _ _ p _ _ hp
    have e2 : (pre ++ [27, 91]) ++ (p ++ []) = pre ++ [27, 91] ++ p := by simp
    have e3 : (pre ++ [27, 91]).length + p.length = (pre ++ [27, 91] ++ p).length := by
      simp only [List.length_append]
    rw [e2, e3]
    have := sem_done (step_inner_eof pre.length (pre ++ [27, 91] ++ p) clean)
    simpa [Outcome.prepend] using this
  | bad p b rest hp hb hm hlen =>
    intro pre clean
    have hst := step_outer_csi pre (p ++ b :: rest) clean (by simp; omega)
    refine sem_step hst ?_
    have e0 : pre ++ 27 :: 91 :: (p ++ b :: rest) = (pre ++ [27, 91]) ++ (p ++ b :: rest) := by
      simp
    have e1 : pre.length + 2 = (pre ++ [27, 91]).length := by simp
    rw [e0, e1]
    apply sem_inner_skip _ _ _ p _ _ hp
    have e2 : (pre ++ [27, 91]) ++ (p ++ b :: rest) = (pre ++ [27, 91] ++ p) ++ b :: rest := by
      simp
    have e3 : (pre ++ [27, 91]).length + p.length = (pre ++ [27, 91] ++ p).length := by
      simp only [List.length_append]
    rw [e2, e3]
    refine sem_step (step_inner_reset _ _ b rest clean hb hm) ?_
    have := sem_inner_stuck pre (p ++ b :: rest) clean
    simpa using this

/-- Behaviour of the disabled rendering, read off a `Strip` derivation. -/
theorem returns_of_strip {c out : Str} (h : Strip c (some (Outcome.ret out))) :
    Color.Returns false c out := by
  have := sem_of_strip h [] []
  simpa [Sem, Outcome.prepend, Color.Returns, Color.String] using this

theorem panics_of_strip {c : Str} (h : Strip c (some Outcome.fault)) :
    Color.Panics false c := by
  have := sem_of_strip h [] []
  simpa [Sem, Outcome.prepend, Color.Panics, Color.String] using this

theorem diverges_of_strip {c : Str} (h : Strip c none) : Color.Diverges false c := by
  have := sem_of_strip h [] []
  simpa [Sem, Color.Diverges, Color.String] using this

/-! ## Consequences for the disabled rendering -/

theorem returns_of_run {c out : Str} (n : Nat)
    (h : run c n ⟨Pc.outer 0, []⟩ = some (Outcome.ret out)) : Color.Returns false c out :=
  ⟨n, fun m hm => by simpa [Color.String] using run_mono n m _ h hm⟩

theorem Color.Returns.unique {e : Bool} {c out out' : Str}
    (h : Color.Returns e c out) (h' : Color.Returns e c out') : out = out' := by
  obtain ⟨n, hn⟩ := h
  obtain ⟨n', hn'⟩ := h'
  have h1 := hn (max n n') (le_max_left _ _)
  have h2 := hn' (max n n') (le_max_right _ _)
  rw [h1] at h2
  simpa using h2

theorem returns_enabled (c : Str) : Color.Returns true c c :=
  ⟨0, fun _ _ => by simp [Color.String]⟩

/-- A run of text without `ESC` is copied when at least three bytes follow it. -/
theorem strip_text (tail : Str) (r : Option Outcome) (htail : 3 ≤ tail.length)
    (hr : Strip tail r) :
    ∀ t : Str, 27 ∉ t → Strip (t ++ tail) (r.map (Outcome.prepend t)) := by
  intro t
  induction t with
  | nil => intro _; simpa [map_prepend_nil] using hr
  | cons a t ih =>
    intro ht
    have ha : a ≠ 27 := fun h => ht (by simp [h])
    have ht' : 27 ∉ t := fun h => ht (List.mem_cons_of_mem _ h)
    have ih' := ih ht'
    cases hx : t ++ tail with
    | nil =>
      have : (t ++ tail).length = 0 := by rw [hx]; rfl
      simp only [List.length_append] at this
      omega
    | cons b rest =>
      have hlen : 2 ≤ rest.length := by
        have : (t ++ tail).length = rest.length + 1 := by rw [hx]; rfl
        simp only [List.length_append] at this
        omega
      rw [hx] at ih'
      have := Strip.copy a b rest _ hlen (fun h => ha h.1) ih'
      rw [map_prepend_prepend] at this
      simpa [hx] using this

/-- Text without `ESC`, followed by fewer than four arbitrary bytes, is a
fixed point of the scan. -/
theorem strip_plain (t : Str) (ht : t.length < 4) :
    ∀ p : Str, 27 ∉ p → Strip (p ++ t) (some (Outcome.ret (p ++ t))) := by
  intro p
  induction p with
  | nil =>
    intro _
    cases t with
    | nil => exact Strip.done
    | cons a t => exact Strip.short _ (by simp) ht
  | cons a p ih =>
    intro hp
    have ha : a ≠ 27 := fun h => hp (by simp [h])
    have hp' : 27 ∉ p := fun h => hp (List.mem_cons_of_mem _ h)
    by_cases hl : (a :: p ++ t).length < 4
    · exact Strip.short _ (by simp) hl
    · cases hx : p ++ t with
      | nil =>
        have : (p ++ t).length = 0 := by rw [hx]; rfl
        simp only [List.length_append, List.length_cons, List.cons_append] at hl this
        omega
      | cons b rest =>
        have hlen : 2 ≤ rest.length := by
          have : (p ++ t).length = rest.length + 1 := by rw [hx]; rfl
          simp only [List.length_append, List.length_cons, List.cons_append] at hl this
          omega
        have ih' := ih hp'
        rw [hx] at ih'
        have := Strip.copy a b rest _ hlen (fun h => ha h.1) ih'
        simpa [hx, Outcome.prepend] using this

/-- A complete sequence in front of the unvisited part is dropped. -/
theorem strip_mode (p rest : Str) (r : Option Outcome) (hp : ∀ b ∈ p, legal b = true)
    (hlen : 1 ≤ p.length + rest.length) (hr : Strip rest r) :
    Strip (27 :: 91 :: (p ++ 109 :: rest)) r :=
  Strip.mode p rest r hp hlen hr

theorem not_esc_of_legal {p : Str} (hp : ∀ b ∈ p, legal b = true) : 27 ∉ p :=
  fun h => absurd (hp 27 h) (by decide)

/-! ### Well-formed styled text -/

theorem Seg.short_render :
    ∀ segs : List Seg, (∀ sg ∈ segs, sg.ok) → (Seg.render segs).length < 3 →
      27 ∉ Seg.render segs ∧ Seg.plain segs = Seg.render segs := by
  intro segs
  induction segs with
  | nil => intro _ _; simp [Seg.render, Seg.plain]
  | cons sg rest ih =>
    intro hok hlen
    have hrest : ∀ x ∈ rest, x.ok := fun x hx => hok x (List.mem_cons_of_mem _ hx)
    have hsg : sg.ok := hok sg (List.mem_cons_self _ _)
    cases sg with
    | text t =>
      simp only [Seg.render, Seg.bytes, List.length_append] at hlen
      have := ih hrest (by omega)
      simp only [Seg.ok] at hsg
      simp [Seg.render, Seg.plain, Seg.bytes, this.1, this.2, hsg]
    | sgr p =>
      simp [Seg.render, Seg.bytes] at hlen
      omega

/-- The scan of a well-formed string returns its text runs. -/
theorem Seg.strip_render :
    ∀ segs : List Seg, (∀ sg ∈ segs, sg.ok) →
      Strip (Seg.render segs) (some (Outcome.ret (Seg.plain segs))) := by
  intro segs
  induction segs with
  | nil => intro _; exact Strip.done
  | cons sg rest ih =>
    intro hok
    have hrest : ∀ x ∈ rest, x.ok := fun x hx => hok x (List.mem_cons_of_mem _ hx)
    have hsg : sg.ok := hok sg (List.mem_cons_self _ _)
    have ih' := ih hrest
    cases sg with
    | text t =>
      simp only [Seg.ok] at hsg
      by_cases hlen : 3 ≤ (Seg.render rest).length
      · have := strip_text _ _ hlen ih' t hsg
        simpa [Seg.render, Seg.plain, Seg.bytes, Outcome.prepend] using this
      · have hs := Seg.short_render rest hrest (by omega)
        have := strip_plain [] (by simp) (t ++ Seg.render rest) (by simp [hsg, hs.1])
        simpa [Seg.render, Seg.plain, Seg.bytes, hs.2] using this
    | sgr p =>
      simp only [Seg.ok] at hsg
      by_cases hbare : p = [] ∧ Seg.render rest = []
      · have := Strip.short [27, 91, 109] (by simp) (by simp)
        simpa [Seg.render, Seg.plain, Seg.bytes, hbare.1, hbare.2] using this
      · have hlen : 1 ≤ p.length + (Seg.render rest).length := by
          by_contra hc
          apply hbare
          constructor
          · apply List.eq_nil_of_length_eq_zero; omega
          · apply List.eq_nil_of_length_eq_zero; omega
        have := strip_mode p _ _ hsg hlen ih'
        simpa [Seg.render, Seg.plain, Seg.bytes, hbare] using this

/-- The text runs of a well-formed string are text without `ESC`, possibly
followed by a bare `ESC [ m`. -/
theorem Seg.plain_shape :
    ∀ segs : List Seg, (∀ sg ∈ segs, sg.ok) →
      ∃ p t : Str, Seg.plain segs = p ++ t ∧ 27 ∉ p ∧ t.length < 4 := by
  intro segs
  induction segs with
  | nil => intro _; exact ⟨[], [], rfl, by simp, by simp⟩
  | cons sg rest ih =>
    intro hok
    have hrest : ∀ x ∈ rest, x.ok := fun x hx => hok x (List.mem_cons_of_mem _ hx)
    have hsg : sg.ok := hok sg (List.mem_cons_self _ _)
    obtain ⟨p, t, hpt, hp, ht⟩ := ih hrest
    cases sg with
    | text u =>
      simp only [Seg.ok] at hsg
      exact ⟨u ++ p, t, by simp [Seg.plain, hpt], by simp [hsg, hp], ht⟩
    | sgr q =>
      by_cases hbare : q = [] ∧ Seg.render rest = []
      · exact ⟨[], [27, 91, 109], by simp [Seg.plain, hbare.1, hbare.2], by simp, by simp⟩
      · exact ⟨p, t, by simp only [Seg.plain, hbare, if_false, hpt], hp, ht⟩

/-! ### The combination builder -/

theorem NewCombo.legal_of_isFg {m : Str} (h : NewCombo.isFg m = true) :
    ∀ b ∈ m, legal b = true := by
  simp only [NewCombo.isFg, Bool.or_eq_true, decide_eq_true_eq] at h
  rcases h with ((((((rfl | rfl) | rfl) | rfl) | rfl) | rfl) | rfl) | rfl <;> decide

theorem NewCombo.legal_of_isBg {m : Str} (h : NewCombo.isBg m = true) :
    ∀ b ∈ m, legal b = true := by
  simp only [NewCombo.isBg, Bool.or_eq_true, decide_eq_true_eq] at h
  rcases h with ((((((rfl | rfl) | rfl) | rfl) | rfl) | rfl) | rfl) | rfl <;> decide

theorem NewCombo.legal_of_isMod {m : Str} (h : NewCombo.isMod m = true) :
    ∀ b ∈ m, legal b = true := by
  simp only [NewCombo.isMod, Bool.or_eq_true, decide_eq_true_eq] at h
  rcases h with (((rfl | rfl) | rfl) | rfl) | rfl <;> decide

theorem NewCombo.write_buffer (st : ComboState) (m : Str)
    (hm : ∀ b ∈ m, legal b = true)
    (hb : ∃ P : Str, st.buffer = 27 :: 91 :: P ∧ ∀ b ∈ P, legal b = true) :
    ∃ P : Str, (NewCombo.write st m).buffer = 27 :: 91 :: P ∧ ∀ b ∈ P, legal b = true := by
  obtain ⟨P, hP, hl⟩ := hb
  unfold NewCombo.write
  by_cases hf : st.first = true
  · refine ⟨P ++ m, by simp [hf, hP], ?_⟩
    intro b hb
    rcases List.mem_append.mp hb with h | h
    · exact hl b h
    · exact hm b h
  · refine ⟨P ++ [sepCSI] ++ m, by simp [hf, hP], ?_⟩
    intro b hb
    rcases List.mem_append.mp hb with h | h
    · rcases List.mem_append.mp h with h | h
      · exact hl b h
      · have : b = sepCSI := by simpa using h
        subst this
        decide
    · exact hm b h

theorem NewCombo.write_flags (st : ComboState) (m : Str) :
    (NewCombo.write st m).col = st.col ∧ (NewCombo.write st m).bcol = st.bcol ∧
      (NewCombo.write st m).mod = st.mod ∧ (NewCombo.write st m).tracking = st.tracking := by
  unfold NewCombo.write
  by_cases hf : st.first = true <;> simp [hf]

theorem NewCombo.body_inv (seen : Bool) (st : ComboState) (m : Str)
    (h : NewCombo.Inv seen st) :
    NewCombo.Inv (seen || NewCombo.recognised m) (NewCombo.body st m) := by
  obtain ⟨hbuf, htr, hflag⟩ := h
  unfold NewCombo.body NewCombo.recognised
  by_cases hfg : NewCombo.isFg m = true
  · by_cases hc : st.col = true
    · simp only [hfg, hc, if_true, ↓reduceIte]
      refine ⟨hbuf, htr, ?_⟩
      rw [← hflag]; simp [hc]
    · simp only [hfg, hc, if_true, if_false, Bool.false_eq_true, ↓reduceIte]
      obtain ⟨w1, w2, w3, w4⟩ := NewCombo.write_flags { st with col := true } m
      refine ⟨NewCombo.write_buffer _ m (NewCombo.legal_of_isFg hfg) hbuf, ?_, ?_⟩
      · rw [w3, w4]; exact htr
      · rw [w1, w2, w3]; simp
  · by_cases hbg : NewCombo.isBg m = true
    · by_cases hc : st.bcol = true
      · simp only [hfg, hbg, hc, if_true, if_false, Bool.false_eq_true, ↓reduceIte]
        refine ⟨hbuf, htr, ?_⟩
        rw [← hflag]; simp [hc]
      · simp only [hfg, hbg, hc, if_true, if_false, Bool.false_eq_true, ↓reduceIte]
        obtain ⟨w1, w2, w3, w4⟩ := NewCombo.write_flags { st with bcol := true } m
        refine ⟨NewCombo.write_buffer _ m (NewCombo.legal_of_isBg hbg) hbuf, ?_, ?_⟩
        · rw [w3, w4]; exact htr
        · rw [w1, w2, w3]; simp
    · by_cases hmd : NewCombo.isMod m = true
      · by_cases hc : m ∈ st.tracking
        · simp only [hfg, hbg, hmd, hc, if_true, if_false, Bool.false_eq_true, ↓reduceIte]
          have hmod : st.mod = true := htr (List.ne_nil_of_mem hc)
          refine ⟨hbuf, htr, ?_⟩
          rw [← hflag]; simp [hmod]
        · simp only [hfg, hbg, hmd, hc, if_true, if_false, Bool.false_eq_true, ↓reduceIte]
          obtain ⟨w1, w2, w3, w4⟩ :=
            NewCombo.write_flags { st with tracking := m :: st.tracking, mod := true } m
          refine ⟨NewCombo.write_buffer _ m (NewCombo.legal_of_isMod hmd) hbuf, ?_, ?_⟩
          · rw [w3]; intro _; rfl
          · rw [w1, w2, w3]; simp
      · simp only [hfg, hbg, hmd, if_false, Bool.false_eq_true, ↓reduceIte]
        refine ⟨hbuf, htr, ?_⟩
        rw [hflag]; simp

theorem NewCombo.foldl_inv :
    ∀ (mods : List Str) (seen : Bool) (st : ComboState), NewCombo.Inv seen st →
      NewCombo.Inv (seen || mods.any NewCombo.recognised) (mods.foldl NewCombo.body st) := by
  intro mods
  induction mods with
  | nil => intro seen st h; simpa using h
  | cons m mods ih =>
    intro seen st h
    have := ih _ _ (NewCombo.body_inv seen st m h)
    simpa [Bool.or_assoc] using this

theorem NewCombo.reset_legal (st : ComboState) : ∀ b ∈ NewCombo.reset st, legal b = true := by
  unfold NewCombo.reset
  cases st.col <;> cases st.bcol <;> cases st.mod <;> decide

theorem NewCombo.reset_eq_nil (st : ComboState) :
    NewCombo.reset st = [] ↔ (st.col || st.bcol || st.mod) = false := by
  unfold NewCombo.reset
  cases st.col <;> cases st.bcol <;> cases st.mod <;> decide

/-- The value built by `NewCombo`: a prologue of legal bytes, the payload, and
an epilogue of legal bytes that is empty exactly when no token is recognised. -/
theorem NewCombo.shape (s : Str) (mods : List Str) :
    ∃ P E : Str,
      NewCombo s mods = 27 :: 91 :: (P ++ 109 :: (s ++ 27 :: 91 :: (E ++ [109]))) ∧
      (∀ b ∈ P, legal b = true) ∧ (∀ b ∈ E, legal b = true) ∧
      (E = [] ↔ mods.any NewCombo.recognised = false) := by
  have hinit : NewCombo.Inv false NewCombo.init := ⟨⟨[], rfl, by simp⟩, by simp [NewCombo.init], rfl⟩
  have hinv := NewCombo.foldl_inv mods false _ hinit
  have hdef : NewCombo s mods =
      (mods.foldl NewCombo.body NewCombo.init).buffer ++ [endCSI] ++ s ++ CSI ++
      NewCombo.reset (mods.foldl NewCombo.body NewCombo.init) ++ [endCSI] := rfl
  generalize mods.foldl NewCombo.body NewCombo.init = st at hinv hdef
  obtain ⟨⟨P, hP, hl⟩, _, hflag⟩ := hinv
  refine ⟨P, NewCombo.reset st, ?_, hl, NewCombo.reset_legal st, ?_⟩
  · rw [hdef, hP]
    simp [CSI, endCSI]
  · rw [NewCombo.reset_eq_nil, hflag]
    simp

/-! ### Decimal text written by `strconv.Itoa` -/

theorem legal_digit (d : Nat) (h : d < 10) : legal (UInt8.ofNat (48 + d)) = true := by
  interval_cases d <;> decide

theorem strconv.formatBits_legal :
    ∀ (fuel n : Nat) (acc : Str), (∀ b ∈ acc, legal b = true) →
      ∀ b ∈ strconv.formatBits fuel n acc, legal b = true := by
  intro fuel
  induction fuel with
  | zero => intro n acc h; simpa [strconv.formatBits] using h
  | succ fuel ih =>
    intro n acc h
    unfold strconv.formatBits
    by_cases hn : n < 10
    · simp only [hn, if_true]
      intro b hb
      rcases List.mem_cons.mp hb with rfl | hb
      · exact legal_digit n hn
      · exact h b hb
    · simp only [hn, if_false]
      apply ih
      intro b hb
      rcases List.mem_cons.mp hb with rfl | hb
      · exact legal_digit (n % 10) (Nat.mod_lt _ (by decide))
      · exact h b hb

theorem strconv.Itoa_legal (n : Nat) : ∀ b ∈ strconv.Itoa (n : Int), legal b = true := by
  have h : ¬ ((n : Int) < 0) := by omega
  simp only [strconv.Itoa, h, if_false]
  exact strconv.formatBits_legal _ _ [] (by simp)

set_option maxRecDepth 100000 in
theorem strconv.Itoa_byte_fin : ∀ n : Fin 256, IsDecimal (strconv.Itoa (n.val : Int)) n.val := by
  decide

theorem strconv.Itoa_byte (b : UInt8) : IsDecimal (strconv.Itoa (b.toNat : Int)) b.toNat :=
  strconv.Itoa_byte_fin b.val

/-! ### Failure modes of the scan -/

/-- An unterminated sequence that runs to the end of the string makes the
append after the inner loop read one byte past the end. -/
theorem panics_of_open_sequence (pre p : Str) (hpre : 27 ∉ pre)
    (hp : ∀ b ∈ p, legal b = true) (hlen : 2 ≤ p.length) :
    Color.Panics false (pre ++ 27 :: 91 :: p) := by
  have h := strip_text (27 :: 91 :: p) _ (by simp; omega) (Strip.eof p hp hlen) pre hpre
  exact panics_of_strip (by simpa [Outcome.prepend] using h)

/-- A `CSI` prefix whose parameters are followed by a byte that is neither
legal nor `m` makes the inner loop spin at the saved index. -/
theorem diverges_of_lookalike (pre p : Str) (b : Byte) (rest : Str) (hpre : 27 ∉ pre)
    (hp : ∀ x ∈ p, legal x = true) (hb : legal b = false) (hm : b ≠ endCSI)
    (hlen : 1 ≤ p.length + rest.length) :
    Color.Diverges false (pre ++ 27 :: 91 :: (p ++ b :: rest)) := by
  have h := strip_text (27 :: 91 :: (p ++ b :: rest)) _ (by simp; omega)
    (Strip.bad p b rest hp hb hm hlen) pre hpre
  exact diverges_of_strip (by simpa using h)

/-! ## The claims -/

/-- C2 (code defect): on the four bytes `ESC [ 2 J` the disabled rendering
never ends: the `default` branch resets `i` to the saved index and the inner
loop, which is not left, comes back to the same byte for ever. -/
theorem String_diverges_on_erase_display : Color.Diverges false [27, 91, 50, 74] :=
  diverges_of_lookalike [] [50] 74 [] (by decide) (by decide) (by decide) (by decide)
    (by decide)

/-- C3 (code defect): on the four bytes `ESC [ 3 1` the inner loop reaches the
end of the string and the append of `src[i]` that follows is out of range, so
the disabled rendering panics. -/
theorem String_panics_on_open_sequence : Color.Panics false [27, 91, 51, 49] :=
  panics_of_open_sequence [] [51, 49] (by decide) (by decide) (by decide)

/-- C4 (code defect): the string `a ESC [ H b`, whose only `CSI` prefix is
followed by a byte that is neither a digit, `;` nor `m`, is not returned
unchanged: the disabled rendering never ends on it. -/
theorem String_diverges_on_lookalike : Color.Diverges false [97, 27, 91, 72, 98] :=
  diverges_of_lookalike [97] [] 72 [98] (by decide) (by decide) (by decide) (by decide)
    (by decide)

/-- C5 (as stated, refuted): the disabled rendering of `ESC ESC [ 1 m [ 0 m`
returns `ESC [ 0 m`, and the disabled rendering of that string returns the
empty string. -/
theorem strip_not_idempotent :
    Color.Returns false [27, 27, 91, 49, 109, 91, 48, 109] [27, 91, 48, 109] ∧
      Color.Returns false [27, 91, 48, 109] [] ∧ ([] : Str) ≠ [27, 91, 48, 109] :=
  ⟨returns_of_run 10 (by decide), returns_of_run 10 (by decide), by decide⟩

/-- C5 (amended): on every well-formed styled string (runs of text without
`ESC`, and sequences `ESC [ (digit | ;)* m`) the disabled rendering returns,
and rendering its result again returns the same string. -/
theorem strip_idempotent_wellformed (segs : List Seg) (h : ∀ sg ∈ segs, sg.ok) :
    Color.Returns false (Seg.render segs) (Seg.plain segs) ∧
      Color.Returns false (Seg.plain segs) (Seg.plain segs) := by
  refine ⟨returns_of_strip (Seg.strip_render segs h), ?_⟩
  obtain ⟨p, t, hpt, hp, ht⟩ := Seg.plain_shape segs h
  rw [hpt]
  exact returns_of_strip (strip_plain t ht p hp)

/-- C5 (amended), at the string `ESC [ 3 1 m h i ESC [ 0 m`. -/
theorem strip_idempotent_wellformed_witness :
    (∀ sg ∈ [Seg.sgr [51, 49], Seg.text [104, 105], Seg.sgr [48]], sg.ok) ∧
      Color.Returns false [27, 91, 51, 49, 109, 104, 105, 27, 91, 48, 109] [104, 105] ∧
      Color.Returns false [104, 105] [104, 105] :=
  have h : ∀ sg ∈ [Seg.sgr [51, 49], Seg.text [104, 105], Seg.sgr [48]], sg.ok := by
    intro sg hsg
    simp only [List.mem_cons, List.mem_singleton, List.not_mem_nil, or_false] at hsg
    rcases hsg with rfl | rfl | rfl <;> simp only [Seg.ok] <;> decide
  ⟨h, strip_idempotent_wellformed _ h⟩

/-- C6: for a payload without the byte `ESC`, the disabled rendering of
`NewColorRGB str red green blue` returns exactly `str`, and the enabled
rendering returns `ESC[38;2;<red>;<green>;<blue>m`, `str`, `ESC[39;5;49;5;m`
with each component in decimal without leading zeros. -/
theorem NewColorRGB_roundtrip (str : Str) (red green blue : UInt8) (h : 27 ∉ str) :
    Color.Returns false (NewColorRGB str red green blue) str ∧
      ∃ dr dg db : Str,
        IsDecimal dr red.toNat ∧ IsDecimal dg green.toNat ∧ IsDecimal db blue.toNat ∧
        Color.Returns true (NewColorRGB str red green blue)
          ([27, 91, 51, 56, 59, 50, 59] ++ dr ++ [59] ++ dg ++ [59] ++ db ++ [109] ++ str ++
            [27, 91, 51, 57, 59, 53, 59, 52, 57, 59, 53, 59, 109]) := by
  constructor
  · have hP : ∀ b ∈ [51, 56, 59, 50, 59] ++ strconv.Itoa (red.toNat : Int) ++ [59] ++
        strconv.Itoa (green.toNat : Int) ++ [59] ++ strconv.Itoa (blue.toNat : Int),
        legal b = true := by
      intro b hb
      simp only [List.mem_append, List.mem_cons, List.mem_singleton, List.not_mem_nil,
        or_false] at hb
      rcases hb with ((((hb | hb) | hb) | hb) | hb) | hb
      · rcases hb with rfl | rfl | rfl | rfl | rfl <;> decide
      · exact strconv.Itoa_legal _ b hb
      · subst hb; decide
      · exact strconv.Itoa_legal _ b hb
      · subst hb; decide
      · exact strconv.Itoa_legal _ b hb
    have hep : Strip (27 :: 91 :: ([51, 57, 59, 53, 59, 52, 57, 59, 53, 59] ++ 109 :: []))
        (some (Outcome.ret [])) :=
      strip_mode _ [] _ (by decide) (by decide) Strip.done
    have hmid := strip_text _ _ (by simp) hep str h
    have := strip_mode _ _ _ hP (by simp; omega) hmid
    apply returns_of_strip
    simpa [NewColorRGB, startRGB, eraser256, CSI, F256, modRGB, mod256, FgDefault, BgDefault,
      EndCSI, sepCSI, endCSI, Outcome.prepend] using this
  · refine ⟨_, _, _, strconv.Itoa_byte red, strconv.Itoa_byte green, strconv.Itoa_byte blue, ?_⟩
    have := returns_enabled (NewColorRGB str red green blue)
    simpa [NewColorRGB, startRGB, eraser256, CSI, F256, modRGB, mod256, FgDefault, BgDefault,
      EndCSI, sepCSI, endCSI] using this

/-- C6, at the payload `x` with the components 0, 7 and 255. -/
theorem NewColorRGB_roundtrip_witness :
    27 ∉ ([120] : Str) ∧
      (Color.Returns false (NewColorRGB [120] 0 7 255) [120] ∧
        ∃ dr dg db : Str,
          IsDecimal dr (0 : UInt8).toNat ∧ IsDecimal dg (7 : UInt8).toNat ∧
          IsDecimal db (255 : UInt8).toNat ∧
          Color.Returns true (NewColorRGB [120] 0 7 255)
            ([27, 91, 51, 56, 59, 50, 59] ++ dr ++ [59] ++ dg ++ [59] ++ db ++ [109] ++ [120] ++
              [27, 91, 51, 57, 59, 53, 59, 52, 57, 59, 53, 59, 109])) :=
  ⟨by decide, NewColorRGB_roundtrip [120] 0 7 255 (by decide)⟩

/-- C7: text without the byte `ESC` followed by fewer than four arbitrary
bytes is returned unchanged by the disabled rendering; in particular every
string of fewer than four bytes is. -/
theorem short_remainder (p t : Str) (hp : 27 ∉ p) (ht : t.length < 4) :
    Color.Returns false (p ++ t) (p ++ t) ∧ Color.Returns false t t :=
  ⟨returns_of_strip (strip_plain t ht p hp),
    returns_of_strip (by simpa using strip_plain t ht [] (by simp))⟩

/-- C7, at the text `ab` followed by `ESC [ 1`. -/
theorem short_remainder_witness :
    27 ∉ ([97, 98] : Str) ∧ ([27, 91, 49] : Str).length < 4 ∧
      Color.Returns false [97, 98, 27, 91, 49] [97, 98, 27, 91, 49] ∧
      Color.Returns false [27, 91, 49] [27, 91, 49] :=
  ⟨by decide, by decide, short_remainder [97, 98] [27, 91, 49] (by decide) (by decide)⟩

/-- C8: each named colour or modifier type renders its payload unchanged when
colours are disabled and as `ESC[<code>m`, payload, `ESC[<reset>m` when they
are enabled: foreground codes 30..37 with reset 39, background codes the
foreground code plus 10 with reset 49, modifier codes 1, 3, 4, 5 with reset 0;
the enabled length is the payload length plus 10, respectively plus 8. -/
theorem single_attribute_rendering (P : Str) :
    (∀ x ∈ [(Black.String, BBlack.String, (30 : Int)), (Red.String, BRed.String, 31),
        (Green.String, BGreen.String, 32), (Yellow.String, BYellow.String, 33),
        (Blue.String, BBlue.String, 34), (Magenta.String, BMagenta.String, 35),
        (Cyan.String, BCyan.String, 36), (White.String, BWhite.String, 37)],
      x.1 false P = P ∧ x.2.1 false P = P ∧
      x.1 true P =
        CSI ++ strconv.Itoa x.2.2 ++ [109] ++ P ++ CSI ++ strconv.Itoa 39 ++ [109] ∧
      x.2.1 true P =
        CSI ++ strconv.Itoa (x.2.2 + 10) ++ [109] ++ P ++ CSI ++ strconv.Itoa 49 ++ [109] ∧
      (x.1 true P).length = P.length + 10 ∧ (x.2.1 true P).length = P.length + 10) ∧
    (∀ y ∈ [(Bold.String, (1 : Int)), (Italic.String, 3), (Underline.String, 4),
        (Blinking.String, 5)],
      y.1 false P = P ∧
      y.1 true P = CSI ++ strconv.Itoa y.2 ++ [109] ++ P ++ CSI ++ strconv.Itoa 0 ++ [109] ∧
      (y.1 true P).length = P.length + 8) := by
  constructor
  · intro x hx
    simp only [List.mem_cons, List.mem_singleton, List.not_mem_nil, or_false] at hx
    rcases hx with rfl | rfl | rfl | rfl | rfl | rfl | rfl | rfl <;>
      refine ⟨rfl, rfl, rfl, rfl, ?_, ?_⟩ <;>
      simp [Black.String, Red.String, Green.String, Yellow.String, Blue.String, Magenta.String,
        Cyan.String, White.String, BBlack.String, BRed.String, BGreen.String, BYellow.String,
        BBlue.String, BMagenta.String, BCyan.String, BWhite.String, colConcat, CSI, FgBlack,
        FgRed, FgGreen, FgYellow, FgBlue, FgMagenta, FgCyan, FgWhite, FgDefault, BgBlack,
        BgRed, BgGreen, BgYellow, BgBlue, BgMagenta, BgCyan, BgWhite, BgDefault]
  · intro y hy
    simp only [List.mem_cons, List.mem_singleton, List.not_mem_nil, or_false] at hy
    rcases hy with rfl | rfl | rfl | rfl <;>
      refine ⟨rfl, rfl, ?_⟩ <;>
      simp [Bold.String, Italic.String, Underline.String, Blinking.String, colConcat, CSI,
        Bld, Ital, Underln, Blink, NoMode]

/-- The range test of `NewColor` on the foreground code never holds. -/
theorem fg_range_never (i : Int) : ¬ (i < 30 ∧ i > 37) := by omega

/-- The range test of `NewColor` on the background code never holds. -/
theorem bg_range_never (i : Int) : ¬ (i < 40 ∧ i > 47) := by omega

/-- The range test of `NewColor256` never holds. -/
theorem range256_never (i : Int) : ¬ (i < 0 ∧ i > 256) := by omega

/-- C9: `NewColor` returns an error exactly when `fg` is not empty and
`strconv.Atoi fg` fails, or `bg` is not empty and `strconv.Atoi bg` fails; with
an error the returned `Color` is empty; every `fg` and `bg` that is empty or
parses is accepted, whatever the parsed value. -/
theorem NewColor_error_iff (str fg bg : Str) :
    ((NewColor str fg bg).2 ≠ none ↔
      (fg ≠ [] ∧ ∃ e, strconv.Atoi fg = Except.error e) ∨
        (bg ≠ [] ∧ ∃ e, strconv.Atoi bg = Except.error e)) ∧
    ((NewColor str fg bg).2 ≠ none → (NewColor str fg bg).1 = []) ∧
    ((fg = [] ∨ ∃ i, strconv.Atoi fg = Except.ok i) →
      (bg = [] ∨ ∃ i, strconv.Atoi bg = Except.ok i) → (NewColor str fg bg).2 = none) := by
  by_cases hfg : fg = [] <;> by_cases hbg : bg = []
  · subst hfg; subst hbg
    simp [NewColor]
  · subst hfg
    cases hb : strconv.Atoi bg with
    | error e => simp [NewColor, hbg, hb]
    | ok i => simp [NewColor, hbg, hb, bg_range_never i]
  · subst hbg
    cases ha : strconv.Atoi fg with
    | error e => simp [NewColor, hfg, ha]
    | ok i => simp [NewColor, hfg, ha, fg_range_never i]
  · cases ha : strconv.Atoi fg with
    | error e => simp [NewColor, hfg, hbg, ha]
    | ok i =>
      cases hb : strconv.Atoi bg with
      | error e => simp [NewColor, hfg, hbg, ha, hb, fg_range_never i]
      | ok j => simp [NewColor, hfg, hbg, ha, hb, fg_range_never i, bg_range_never j]

/-- The error `not a valid color 0-256` is never returned by `NewColor256`:
an error comes from `strconv.Atoi` only. -/
theorem NewColor256_error_only_from_Atoi (str fg bg : Str) (e : Error)
    (h : (NewColor256 str fg bg).2 = some e) :
    strconv.Atoi fg = Except.error e ∨ strconv.Atoi bg = Except.error e := by
  by_cases hfg : fg = [] <;> by_cases hbg : bg = []
  · subst hfg; subst hbg
    simp [NewColor256] at h
  · subst hfg
    cases hb : strconv.Atoi bg with
    | error e' => simp [NewColor256, hbg, hb] at h; simp [h]
    | ok i => simp [NewColor256, hbg, hb, range256_never i] at h
  · subst hbg
    cases ha : strconv.Atoi fg with
    | error e' => simp [NewColor256, hfg, ha] at h; simp [h]
    | ok i => simp [NewColor256, hfg, ha, range256_never i] at h
  · cases ha : strconv.Atoi fg with
    | error e' => simp [NewColor256, hfg, hbg, ha] at h; simp [h]
    | ok i =>
      cases hb : strconv.Atoi bg with
      | error e' => simp [NewColor256, hfg, hbg, ha, hb, range256_never i] at h; simp [h]
      | ok j => simp [NewColor256, hfg, hbg, ha, hb, range256_never i, range256_never j] at h

/-- C10 (code defect): the indices `300` and `-1` parse as integers outside
0..255, and `NewColor256` returns the styled value with a nil error for each
of them instead of the error `not a valid color`. -/
theorem NewColor256_accepts_out_of_range :
    strconv.Atoi [51, 48, 48] = Except.ok 300 ∧
      NewColor256 [120] [51, 48, 48] [] =
        ([27, 91, 51, 56, 59, 53, 59, 51, 48, 48, 59, 52, 56, 59, 53, 59, 109, 120,
          27, 91, 51, 57, 59, 53, 59, 52, 57, 59, 53, 59, 109], none) ∧
      strconv.Atoi [45, 49] = Except.ok (-1) ∧
      NewColor256 [120] [] [45, 49] =
        ([27, 91, 51, 56, 59, 53, 59, 59, 52, 56, 59, 53, 59, 45, 49, 109, 120,
          27, 91, 51, 57, 59, 53, 59, 52, 57, 59, 53, 59, 109], none) :=
  ⟨rfl, by decide, rfl, by decide⟩

/-! ### The constructors `NewColor` and `NewColor256` -/

/-- When `NewColor` returns no error, both codes are empty or parse, and the
value is built by `createColor` from the codes, with the defaults for the
empty ones. -/
theorem NewColor_ok (str fg bg : Str) (h : (NewColor str fg bg).2 = none) :
    (fg = [] ∨ ∃ i, strconv.Atoi fg = Except.ok i) ∧
      (bg = [] ∨ ∃ i, strconv.Atoi bg = Except.ok i) ∧
      (NewColor str fg bg).1 =
        createColor str (if fg = [] then FgDefault else fg) (if bg = [] then BgDefault else bg) := by
  by_cases hfg : fg = [] <;> by_cases hbg : bg = []
  · subst hfg; subst hbg
    simp [NewColor]
  · subst hfg
    cases hb : strconv.Atoi bg with
    | error e => simp [NewColor, hbg, hb] at h
    | ok i => simp [NewColor, hbg, hb, bg_range_never i]
  · subst hbg
    cases ha : strconv.Atoi fg with
    | error e => simp [NewColor, hfg, ha] at h
    | ok i => simp [NewColor, hfg, ha, fg_range_never i]
  · cases ha : strconv.Atoi fg with
    | error e => simp [NewColor, hfg, hbg, ha] at h
    | ok i =>
      cases hb : strconv.Atoi bg with
      | error e => simp [NewColor, hfg, hbg, ha, hb, fg_range_never i] at h
      | ok j => simp [NewColor, hfg, hbg, ha, hb, fg_range_never i, bg_range_never j]

/-- When `NewColor256` returns no error, the value is the concatenation
written into the buffer. -/
theorem NewColor256_ok (str fg bg : Str) (h : (NewColor256 str fg bg).2 = none) :
    (NewColor256 str fg bg).1 =
      start256 ++ fg ++ sep256 ++ bg ++ [endCSI] ++ str ++ eraser256 := by
  by_cases hfg : fg = [] <;> by_cases hbg : bg = []
  · subst hfg; subst hbg
    simp [NewColor256]
  · subst hfg
    cases hb : strconv.Atoi bg with
    | error e => simp [NewColor256, hbg, hb] at h
    | ok i => simp [NewColor256, hbg, hb, range256_never i]
  · subst hbg
    cases ha : strconv.Atoi fg with
    | error e => simp [NewColor256, hfg, ha] at h
    | ok i => simp [NewColor256, hfg, ha, range256_never i]
  · cases ha : strconv.Atoi fg with
    | error e => simp [NewColor256, hfg, hbg, ha] at h
    | ok i =>
      cases hb : strconv.Atoi bg with
      | error e => simp [NewColor256, hfg, hbg, ha, hb, range256_never i] at h
      | ok j => simp [NewColor256, hfg, hbg, ha, hb, range256_never i, range256_never j]

theorem legal_of_digit (b : Byte) (h : 48 ≤ b ∧ b ≤ 57) : legal b = true := by
  obtain ⟨⟨v, hv⟩⟩ := b
  obtain ⟨h1, h2⟩ := h
  have h1' : 48 ≤ v := h1
  have h2' : v ≤ 57 := h2
  interval_cases v <;> rfl

theorem strconv.ParseUint_digits :
    ∀ (l : Str) (n r : Nat), strconv.ParseUint l n = Except.ok r → ∀ b ∈ l, 48 ≤ b ∧ b ≤ 57 := by
  intro l
  induction l with
  | nil => intro n r _ b hb; cases hb
  | cons c l ih =>
    intro n r h b hb
    unfold strconv.ParseUint at h
    by_cases hc : 48 ≤ c ∧ c ≤ 57
    · by_cases hr : n * 10 + (c.toNat - 48) < 2 ^ 64
      · simp only [hc, hr, and_self, if_true] at h
        rcases List.mem_cons.mp hb with rfl | hb
        · exact hc
        · exact ih _ _ h b hb
      · simp only [hc, hr, and_self, if_true, if_false] at h
        cases h
    · simp only [hc, if_false] at h
      cases h

theorem strconv.Atoi_body_unsigned (t : Str) :
    t.head? ≠ some 43 → t.head? ≠ some 45 →
      (match t with
        | 43 :: rest => rest
        | 45 :: rest => rest
        | _ => t) = t := by
  intro hplus hminus
  split
  · simp at hplus
  · simp at hminus
  · rfl

/-- A text without sign that `strconv.Atoi` accepts consists of digits. -/
theorem strconv.Atoi_unsigned_legal (t : Str) (i : Int) (h : strconv.Atoi t = Except.ok i)
    (hplus : t.head? ≠ some 43) (hminus : t.head? ≠ some 45) : ∀ b ∈ t, legal b = true := by
  have hbody := strconv.Atoi_body_unsigned t hplus hminus
  simp only [strconv.Atoi, hbody] at h
  by_cases ht : t = []
  · simp [ht] at h
  · simp only [ht, if_false] at h
    cases hp : strconv.ParseUint t 0 with
    | error e => simp [hp] at h
    | ok un =>
      intro b hb
      exact legal_of_digit b (strconv.ParseUint_digits t 0 un hp b hb)

/-- C11: when `NewColor` succeeds, the returned value is `ESC[`, the
foreground code (`39` when `fg` is empty), `;`, the background code (`49` when
`bg` is empty), `m`, the payload and `ESC[39;49m`; the constructor does not
read `colorEnable`, and the enabled rendering returns the value unchanged. -/
theorem NewColor_output (str fg bg : Str) (h : (NewColor str fg bg).2 = none) :
    (NewColor str fg bg).1 =
        [27, 91] ++ (if fg = [] then [51, 57] else fg) ++ [59] ++
          (if bg = [] then [52, 57] else bg) ++ [109] ++ str ++
          [27, 91, 51, 57, 59, 52, 57, 109] ∧
      Color.Returns true (NewColor str fg bg).1 (NewColor str fg bg).1 := by
  refine ⟨?_, returns_enabled _⟩
  rw [(NewColor_ok str fg bg h).2.2]
  simp [createColor, CSI, sepCSI, endCSI, eraser, FgDefault, BgDefault, SepCSI, EndCSI]

/-- C11, at the payload `x` with the foreground code `31` and no background
code. -/
theorem NewColor_output_witness :
    (NewColor [120] [51, 49] []).2 = none ∧
      (NewColor [120] [51, 49] []).1 =
        [27, 91] ++ (if ([51, 49] : Str) = [] then [51, 57] else [51, 49]) ++ [59] ++
          (if ([] : Str) = [] then [52, 57] else []) ++ [109] ++ [120] ++
          [27, 91, 51, 57, 59, 52, 57, 109] ∧
      Color.Returns true (NewColor [120] [51, 49] []).1 (NewColor [120] [51, 49] []).1 :=
  ⟨by decide, NewColor_output [120] [51, 49] [] (by decide)⟩

/-- C12: when `NewColor256` succeeds, the returned value is `ESC[38;5;`, `fg`,
`;48;5;`, `bg`, `m`, the payload and the reset `ESC[39;5;49;5;m` for both
channels, whichever of `fg` and `bg` is empty. -/
theorem NewColor256_output (str fg bg : Str) (h : (NewColor256 str fg bg).2 = none) :
    (NewColor256 str fg bg).1 =
      [27, 91, 51, 56, 59, 53, 59] ++ fg ++ [59, 52, 56, 59, 53, 59] ++ bg ++ [109] ++ str ++
        [27, 91, 51, 57, 59, 53, 59, 52, 57, 59, 53, 59, 109] := by
  rw [NewColor256_ok str fg bg h]
  simp [start256, sep256, eraser256, CSI, F256, Bg256, mod256, SepCSI, EndCSI, endCSI,
    FgDefault, BgDefault]

/-- C12, at the payload `p` with the indices `1` and `2`. -/
theorem NewColor256_output_witness :
    (NewColor256 [112] [49] [50]).2 = none ∧
      (NewColor256 [112] [49] [50]).1 =
        [27, 91, 51, 56, 59, 53, 59] ++ [49] ++ [59, 52, 56, 59, 53, 59] ++ [50] ++ [109] ++
          [112] ++ [27, 91, 51, 57, 59, 53, 59, 52, 57, 59, 53, 59, 109] :=
  ⟨by decide, NewColor256_output [112] [49] [50] (by decide)⟩

/-- C17 (code defect): `NewColor` returns no error on the foreground code
`+31` and copies the sign into the prologue, so the returned value has no
decomposition with parameters made of digits and `;` only, the legal
characters of a term mod code. -/
theorem NewColor_signed_counterexample :
    (NewColor [120] [43, 51, 49] []).2 = none ∧
      ¬ ∃ a b : Str,
        (NewColor [120] [43, 51, 49] []).1 =
          CSI ++ a ++ [109] ++ [120] ++ CSI ++ b ++ [109] ∧
        (∀ x ∈ a, legal x = true) ∧ (∀ x ∈ b, legal x = true) := by
  have hv : NewColor [120] [43, 51, 49] [] =
      ([27, 91, 43, 51, 49, 59, 52, 57, 109, 120, 27, 91, 51, 57, 59, 52, 57, 109], none) := by
    decide
  refine ⟨by rw [hv], ?_⟩
  rintro ⟨a, b, heq, ha, _⟩
  rw [hv] at heq
  cases a with
  | nil => simp [CSI] at heq
  | cons c a =>
    simp only [CSI, List.cons_append, List.nil_append, List.cons.injEq, true_and] at heq
    have hc : legal c = true := ha c (List.mem_cons_self _ _)
    rw [← heq.1] at hc
    exact absurd hc (by decide)

/-- When `NewColor` succeeds and neither `fg` nor `bg` begins with a sign, the
returned value is `ESC[ a m`, the payload and `ESC[ b m` with `a` and `b` made
of decimal digits and `;` only. -/
theorem NewColor_wellformed_unsigned (str fg bg : Str) (h : (NewColor str fg bg).2 = none)
    (hfg : fg.head? ≠ some 43 ∧ fg.head? ≠ some 45)
    (hbg : bg.head? ≠ some 43 ∧ bg.head? ≠ some 45) :
    ∃ a b : Str,
      (NewColor str fg bg).1 = CSI ++ a ++ [109] ++ str ++ CSI ++ b ++ [109] ∧
      (∀ x ∈ a, legal x = true) ∧ (∀ x ∈ b, legal x = true) := by
  obtain ⟨hf, hb, hval⟩ := NewColor_ok str fg bg h
  have hfl : ∀ x ∈ (if fg = [] then FgDefault else fg), legal x = true := by
    rcases hf with rfl | ⟨i, hi⟩
    · decide
    · by_cases he : fg = []
      · subst he; decide
      · simp only [he, if_false]
        exact strconv.Atoi_unsigned_legal fg i hi hfg.1 hfg.2
  have hbl : ∀ x ∈ (if bg = [] then BgDefault else bg), legal x = true := by
    rcases hb with rfl | ⟨i, hi⟩
    · decide
    · by_cases he : bg = []
      · subst he; decide
      · simp only [he, if_false]
        exact strconv.Atoi_unsigned_legal bg i hi hbg.1 hbg.2
  refine ⟨(if fg = [] then FgDefault else fg) ++ [59] ++ (if bg = [] then BgDefault else bg),
    [51, 57, 59, 52, 57], ?_, ?_, by decide⟩
  · rw [hval]
    simp [createColor, CSI, sepCSI, endCSI, eraser, FgDefault, BgDefault, SepCSI, EndCSI]
  · intro x hx
    simp only [List.mem_append, List.mem_singleton] at hx
    rcases hx with (hx | rfl) | hx
    · exact hfl x hx
    · decide
    · exact hbl x hx

/-- The well-formed value of `NewColor` at the codes `31` and `42`. -/
theorem NewColor_wellformed_unsigned_witness :
    (NewColor [120] [51, 49] [52, 50]).2 = none ∧
      (([51, 49] : Str).head? ≠ some 43 ∧ ([51, 49] : Str).head? ≠ some 45) ∧
      (([52, 50] : Str).head? ≠ some 43 ∧ ([52, 50] : Str).head? ≠ some 45) ∧
      ∃ a b : Str,
        (NewColor [120] [51, 49] [52, 50]).1 = CSI ++ a ++ [109] ++ [120] ++ CSI ++ b ++ [109] ∧
        (∀ x ∈ a, legal x = true) ∧ (∀ x ∈ b, legal x = true) :=
  ⟨by decide, by decide, by decide,
    NewColor_wellformed_unsigned [120] [51, 49] [52, 50] (by decide) (by decide) (by decide)⟩

/-! ### The combination builder, token by token -/

theorem keepFrom_snoc (keep : List Str → Str → Bool) (m : Str) :
    ∀ (l c : List Str),
      keepFrom keep c (l ++ [m]) =
        keepFrom keep c l ++ (if keep (c ++ l) m then [m] else []) := by
  intro l
  induction l with
  | nil => intro c; by_cases h : keep c m = true <;> simp [keepFrom, h]
  | cons a l ih =>
    intro c
    have := ih (c ++ [a])
    simp only [List.append_assoc, List.singleton_append] at this
    by_cases h : keep c a = true <;> simp [keepFrom, h, this]

theorem keepFrom_sublist (keep : List Str → Str → Bool) :
    ∀ (l c : List Str), List.Sublist (keepFrom keep c l) l := by
  intro l
  induction l with
  | nil => intro c; simp [keepFrom]
  | cons a l ih =>
    intro c
    by_cases h : keep c a = true
    · simp only [keepFrom, h, if_true]
      exact (ih _).cons₂ a
    · simp only [keepFrom, h, if_false]
      exact (ih _).cons a

theorem joinWith_snoc (sep m : Str) :
    ∀ xs : List Str,
      joinWith sep (xs ++ [m]) = if xs = [] then m else joinWith sep xs ++ sep ++ m := by
  intro xs
  induction xs with
  | nil => simp [joinWith]
  | cons x xs ih =>
    cases xs with
    | nil => simp [joinWith]
    | cons y ys =>
      have : joinWith sep (y :: ys ++ [m]) = joinWith sep (y :: ys) ++ sep ++ m := by
        simpa using ih
      simp only [List.cons_append] at this ⊢
      simp [joinWith, this]

theorem NewCombo.honored_snoc (b : List Str) (m : Str) :
    NewCombo.honored (b ++ [m]) =
      NewCombo.honored b ++ (if NewCombo.keeps b m then [m] else []) := by
  have := keepFrom_snoc NewCombo.keeps m b []
  simpa [NewCombo.honored] using this

theorem NewCombo.fg_not_bg {m : Str} (h : NewCombo.isFg m = true) : NewCombo.isBg m = false := by
  simp only [NewCombo.isFg, Bool.or_eq_true, decide_eq_true_eq] at h
  rcases h with ((((((rfl | rfl) | rfl) | rfl) | rfl) | rfl) | rfl) | rfl <;> decide

theorem NewCombo.fg_not_mod {m : Str} (h : NewCombo.isFg m = true) :
    NewCombo.isMod m = false := by
  simp only [NewCombo.isFg, Bool.or_eq_true, decide_eq_true_eq] at h
  rcases h with ((((((rfl | rfl) | rfl) | rfl) | rfl) | rfl) | rfl) | rfl <;> decide

theorem NewCombo.bg_not_mod {m : Str} (h : NewCombo.isBg m = true) :
    NewCombo.isMod m = false := by
  simp only [NewCombo.isBg, Bool.or_eq_true, decide_eq_true_eq] at h
  rcases h with ((((((rfl | rfl) | rfl) | rfl) | rfl) | rfl) | rfl) | rfl <;> decide

/-- The three classes of tokens exclude one another: the class of a token as
one of `fg`, `bg`, `mod` or none. -/
theorem NewCombo.classes (m : Str) :
    (NewCombo.isFg m = true ∧ NewCombo.isBg m = false ∧ NewCombo.isMod m = false) ∨
    (NewCombo.isFg m = false ∧ NewCombo.isBg m = true ∧ NewCombo.isMod m = false) ∨
    (NewCombo.isFg m = false ∧ NewCombo.isBg m = false ∧ NewCombo.isMod m = true) ∨
    (NewCombo.isFg m = false ∧ NewCombo.isBg m = false ∧ NewCombo.isMod m = false) := by
  by_cases hf : NewCombo.isFg m = true
  · exact Or.inl ⟨hf, NewCombo.fg_not_bg hf, NewCombo.fg_not_mod hf⟩
  · have hf' : NewCombo.isFg m = false := by simpa using hf
    by_cases hb : NewCombo.isBg m = true
    · exact Or.inr (Or.inl ⟨hf', hb, NewCombo.bg_not_mod hb⟩)
    · have hb' : NewCombo.isBg m = false := by simpa using hb
      by_cases hm : NewCombo.isMod m = true
      · exact Or.inr (Or.inr (Or.inl ⟨hf', hb', hm⟩))
      · exact Or.inr (Or.inr (Or.inr ⟨hf', hb', by simpa using hm⟩))

/-- The buffer and the flag `first` after the end of the loop body. -/
theorem NewCombo.write_join (st : ComboState) (m : Str) (hon : List Str)
    (hfirst : st.first = hon.isEmpty) (hbuf : st.buffer = CSI ++ joinWith [sepCSI] hon) :
    (NewCombo.write st m).first = (hon ++ [m]).isEmpty ∧
      (NewCombo.write st m).buffer = CSI ++ joinWith [sepCSI] (hon ++ [m]) := by
  unfold NewCombo.write
  cases hon with
  | nil =>
    have hf : st.first = true := by simpa using hfirst
    simp [hf, hbuf, joinWith]
  | cons x xs =>
    have hf : st.first = false := by simpa using hfirst
    have hj := joinWith_snoc [sepCSI] m (x :: xs)
    simp only [reduceCtorEq, if_false] at hj
    simp only [hf, Bool.false_eq_true, if_false, hbuf, hj]
    simp

/-- The effect of one iteration of the loop of `NewCombo` on each local
variable; the token is written exactly when its class is not yet set, or when
it is a modifier that is not yet in `tracking`. -/
theorem NewCombo.body_fields (st : ComboState) (m : Str) :
    (NewCombo.body st m).col = (st.col || NewCombo.isFg m) ∧
    (NewCombo.body st m).bcol = (st.bcol || NewCombo.isBg m) ∧
    (NewCombo.body st m).mod = (st.mod || (NewCombo.isMod m && !decide (m ∈ st.tracking))) ∧
    (∀ x, x ∈ (NewCombo.body st m).tracking ↔
      x ∈ st.tracking ∨ (x = m ∧ NewCombo.isMod m = true)) ∧
    (NewCombo.body st m).first =
      (if (NewCombo.isFg m && !st.col) || (NewCombo.isBg m && !st.bcol) ||
          (NewCombo.isMod m && !decide (m ∈ st.tracking))
        then (NewCombo.write st m).first else st.first) ∧
    (NewCombo.body st m).buffer =
      (if (NewCombo.isFg m && !st.col) || (NewCombo.isBg m && !st.bcol) ||
          (NewCombo.isMod m && !decide (m ∈ st.tracking))
        then (NewCombo.write st m).buffer else st.buffer) := by
  unfold NewCombo.body NewCombo.write
  rcases NewCombo.classes m with ⟨hf, hb, hm⟩ | ⟨hf, hb, hm⟩ | ⟨hf, hb, hm⟩ | ⟨hf, hb, hm⟩ <;>
    by_cases hc : st.col = true <;> by_cases hbc : st.bcol = true <;>
    by_cases ht : m ∈ st.tracking <;> by_cases hfirst : st.first = true <;>
    simp [hf, hb, hm, hc, hbc, ht, hfirst] <;>
    (try (intro x; exact or_comm))

theorem NewCombo.body_loopInv (b : List Str) (st : ComboState) (m : Str)
    (h : NewCombo.LoopInv b st) : NewCombo.LoopInv (b ++ [m]) (NewCombo.body st m) := by
  obtain ⟨hcol, hbcol, hmod, htr, hfirst, hbuf⟩ := h
  obtain ⟨f1, f2, f3, f4, f5, f6⟩ := NewCombo.body_fields st m
  have hmem : NewCombo.isMod m = true → (decide (m ∈ st.tracking) = b.contains m) := by
    intro hm
    have := htr m hm
    by_cases hb : m ∈ b
    · simp [hb, this.mpr hb]
    · have : m ∉ st.tracking := fun hx => hb (this.mp hx)
      simp [hb, this]
  have hk : ((NewCombo.isFg m && !st.col) || (NewCombo.isBg m && !st.bcol) ||
      (NewCombo.isMod m && !decide (m ∈ st.tracking))) = NewCombo.keeps b m := by
    unfold NewCombo.keeps
    rw [hcol, hbcol]
    cases hm : NewCombo.isMod m with
    | false => simp
    | true => rw [hmem hm]
  have hs := NewCombo.honored_snoc b m
  refine ⟨?_, ?_, ?_, ?_, ?_, ?_⟩
  · rw [f1, hcol]; simp [List.any_append]
  · rw [f2, hbcol]; simp [List.any_append]
  · rw [f3, hmod]
    cases hm : NewCombo.isMod m with
    | false => simp [List.any_append, hm]
    | true =>
      rw [hmem hm]
      by_cases hb : m ∈ b
      · have : b.any NewCombo.isMod = true := List.any_eq_true.mpr ⟨m, hb, hm⟩
        simp [List.any_append, this]
      · simp [List.any_append, hm, hb]
  · intro x hx
    rw [f4 x, htr x hx]
    constructor
    · rintro (hb | ⟨rfl, _⟩)
      · exact List.mem_append.mpr (Or.inl hb)
      · simp
    · intro hb
      rcases List.mem_append.mp hb with hb | hb
      · exact Or.inl hb
      · have : x = m := by simpa using hb
        subst this
        exact Or.inr ⟨rfl, hx⟩
  · rw [f5, hk, hs]
    by_cases hkeep : NewCombo.keeps b m = true
    · simp only [hkeep, if_true]
      exact (NewCombo.write_join st m _ hfirst hbuf).1
    · simp only [hkeep, if_false, List.append_nil, Bool.false_eq_true]
      exact hfirst
  · rw [f6, hk, hs]
    by_cases hkeep : NewCombo.keeps b m = true
    · simp only [hkeep, if_true]
      exact (NewCombo.write_join st m _ hfirst hbuf).2
    · simp only [hkeep, if_false, List.append_nil, Bool.false_eq_true]
      exact hbuf

theorem NewCombo.foldl_loopInv :
    ∀ (rest b : List Str) (st : ComboState), NewCombo.LoopInv b st →
      NewCombo.LoopInv (b ++ rest) (rest.foldl NewCombo.body st) := by
  intro rest
  induction rest with
  | nil => intro b st h; simpa using h
  | cons m rest ih =>
    intro b st h
    have := ih (b ++ [m]) _ (NewCombo.body_loopInv b st m h)
    simpa using this

theorem NewCombo.init_loopInv : NewCombo.LoopInv [] NewCombo.init := by
  refine ⟨rfl, rfl, rfl, ?_, rfl, ?_⟩
  · intro m _; simp [NewCombo.init]
  · simp [NewCombo.init, NewCombo.honored, keepFrom, joinWith]

/-- The honoured tokens set a flag exactly when the tokens do. -/
theorem NewCombo.honored_any (b : List Str) :
    (NewCombo.honored b).any NewCombo.isFg = b.any NewCombo.isFg ∧
    (NewCombo.honored b).any NewCombo.isBg = b.any NewCombo.isBg ∧
    (NewCombo.honored b).any NewCombo.isMod = b.any NewCombo.isMod ∧
    (∀ x, NewCombo.isMod x = true → (x ∈ NewCombo.honored b ↔ x ∈ b)) := by
  induction b using List.reverseRecOn with
  | nil => simp [NewCombo.honored, keepFrom]
  | append_singleton b m ih =>
    obtain ⟨i1, i2, i3, i4⟩ := ih
    have hs := NewCombo.honored_snoc b m
    have hmemb : NewCombo.isMod m = true → m ∈ b → b.any NewCombo.isMod = true :=
      fun hm hb => List.any_eq_true.mpr ⟨m, hb, hm⟩
    rcases NewCombo.classes m with ⟨hf, hb, hm⟩ | ⟨hf, hb, hm⟩ | ⟨hf, hb, hm⟩ | ⟨hf, hb, hm⟩
    · have hx : ∀ x, NewCombo.isMod x = true → x ≠ m := fun x hx e => by
        rw [e, hm] at hx; cases hx
      refine ⟨?_, ?_, ?_, ?_⟩
      · rw [hs]
        cases hc : b.any NewCombo.isFg <;>
          simp [NewCombo.keeps, hf, hb, hm, hc, List.any_append, i1]
      · rw [hs]
        cases hc : b.any NewCombo.isFg <;>
          simp [NewCombo.keeps, hf, hb, hm, hc, List.any_append, i2]
      · rw [hs]
        cases hc : b.any NewCombo.isFg <;>
          simp [NewCombo.keeps, hf, hb, hm, hc, List.any_append, i3]
      · intro x hxm
        rw [hs]
        cases hc : b.any NewCombo.isFg <;>
          simp [NewCombo.keeps, hf, hb, hm, hc, i4 x hxm, hx x hxm]
    · have hx : ∀ x, NewCombo.isMod x = true → x ≠ m := fun x hx e => by
        rw [e, hm] at hx; cases hx
      refine ⟨?_, ?_, ?_, ?_⟩
      · rw [hs]
        cases hc : b.any NewCombo.isBg <;>
          simp [NewCombo.keeps, hf, hb, hm, hc, List.any_append, i1]
      · rw [hs]
        cases hc : b.any NewCombo.isBg <;>
          simp [NewCombo.keeps, hf, hb, hm, hc, List.any_append, i2]
      · rw [hs]
        cases hc : b.any NewCombo.isBg <;>
          simp [NewCombo.keeps, hf, hb, hm, hc, List.any_append, i3]
      · intro x hxm
        rw [hs]
        cases hc : b.any NewCombo.isBg <;>
          simp [NewCombo.keeps, hf, hb, hm, hc, i4 x hxm, hx x hxm]
    · refine ⟨?_, ?_, ?_, ?_⟩
      · rw [hs]
        by_cases hc : m ∈ b <;>
          simp [NewCombo.keeps, hf, hb, hm, hc, List.any_append, i1]
      · rw [hs]
        by_cases hc : m ∈ b <;>
          simp [NewCombo.keeps, hf, hb, hm, hc, List.any_append, i2]
      · rw [hs]
        by_cases hc : m ∈ b
        · simp [NewCombo.keeps, hf, hb, hm, hc, List.any_append, i3, hmemb hm hc]
        · simp [NewCombo.keeps, hf, hb, hm, hc, List.any_append, i3]
      · intro x hxm
        rw [hs]
        by_cases hc : m ∈ b
        · have hk : NewCombo.keeps b m = false := by simp [NewCombo.keeps, hf, hb, hm, hc]
          simp only [hk, Bool.false_eq_true, if_false, List.append_nil, i4 x hxm]
          constructor
          · intro h; exact List.mem_append.mpr (Or.inl h)
          · intro h
            rcases List.mem_append.mp h with h | h
            · exact h
            · have : x = m := by simpa using h
              subst this
              exact hc
        · have hk : NewCombo.keeps b m = true := by simp [NewCombo.keeps, hf, hb, hm, hc]
          simp [hk, i4 x hxm]
    · have hx : ∀ x, NewCombo.isMod x = true → x ≠ m := fun x hx e => by
        rw [e, hm] at hx; cases hx
      refine ⟨?_, ?_, ?_, ?_⟩
      · rw [hs]; simp [NewCombo.keeps, hf, hb, hm, List.any_append, i1]
      · rw [hs]; simp [NewCombo.keeps, hf, hb, hm, List.any_append, i2]
      · rw [hs]; simp [NewCombo.keeps, hf, hb, hm, List.any_append, i3]
      · intro x hxm
        rw [hs]; simp [NewCombo.keeps, hf, hb, hm, i4 x hxm, hx x hxm]

theorem NewCombo.reset_eq_join (st : ComboState) (hon : List Str)
    (h1 : st.col = hon.any NewCombo.isFg) (h2 : st.bcol = hon.any NewCombo.isBg)
    (h3 : st.mod = hon.any NewCombo.isMod) :
    NewCombo.reset st = joinWith [sepCSI] (NewCombo.resets hon) := by
  unfold NewCombo.reset NewCombo.resets
  rw [← h1, ← h2, ← h3]
  cases st.col <;> cases st.bcol <;> cases st.mod <;> decide

/-- The value built by `NewCombo`, in closed form: the honoured tokens joined
with `;` in the prologue, the reset codes joined with `;` in the epilogue. -/
theorem NewCombo.eq_join (s : Str) (mods : List Str) :
    NewCombo s mods =
      CSI ++ joinWith [sepCSI] (NewCombo.honored mods) ++ [endCSI] ++ s ++ CSI ++
        joinWith [sepCSI] (NewCombo.resets (NewCombo.honored mods)) ++ [endCSI] := by
  have hinv := NewCombo.foldl_loopInv mods [] NewCombo.init NewCombo.init_loopInv
  have hdef : NewCombo s mods =
      (mods.foldl NewCombo.body NewCombo.init).buffer ++ [endCSI] ++ s ++ CSI ++
      NewCombo.reset (mods.foldl NewCombo.body NewCombo.init) ++ [endCSI] := rfl
  generalize mods.foldl NewCombo.body NewCombo.init = st at hinv hdef
  rw [List.nil_append] at hinv
  obtain ⟨hcol, hbcol, hmod, _, _, hbuf⟩ := hinv
  obtain ⟨a1, a2, a3, _⟩ := NewCombo.honored_any mods
  rw [hdef, hbuf,
    NewCombo.reset_eq_join st (NewCombo.honored mods) (by rw [hcol, a1]) (by rw [hbcol, a2])
      (by rw [hmod, a3])]

theorem NewCombo.keeps_congr (b c : List Str) (m : Str)
    (h1 : b.any NewCombo.isFg = c.any NewCombo.isFg)
    (h2 : b.any NewCombo.isBg = c.any NewCombo.isBg)
    (h3 : ∀ x, NewCombo.isMod x = true → (x ∈ b ↔ x ∈ c)) :
    NewCombo.keeps b m = NewCombo.keeps c m := by
  unfold NewCombo.keeps
  rw [h1, h2]
  cases hm : NewCombo.isMod m with
  | false => simp
  | true =>
    have := h3 m hm
    by_cases hb : m ∈ b
    · have hc : m ∈ c := this.mp hb
      simp [hb, hc]
    · have hc : m ∉ c := fun h => hb (this.mpr h)
      simp [hb, hc]

/-- Removing tokens that repeat a class already set (a later colour of the
same channel, a modifier seen before) changes neither the honoured tokens nor
the flags. -/
theorem NewCombo.honored_keepFrom (k : List Str → Str → Bool)
    (hk : ∀ b m, k b m = false →
      (NewCombo.isFg m = true ∧ b.any NewCombo.isFg = true) ∨
      (NewCombo.isBg m = true ∧ b.any NewCombo.isBg = true) ∨
      (NewCombo.isMod m = true ∧ m ∈ b)) :
    ∀ b : List Str,
      NewCombo.honored (keepFrom k [] b) = NewCombo.honored b ∧
      (keepFrom k [] b).any NewCombo.isFg = b.any NewCombo.isFg ∧
      (keepFrom k [] b).any NewCombo.isBg = b.any NewCombo.isBg ∧
      (∀ x, NewCombo.isMod x = true → (x ∈ keepFrom k [] b ↔ x ∈ b)) := by
  intro b
  induction b using List.reverseRecOn with
  | nil => simp [keepFrom]
  | append_singleton b m ih =>
    obtain ⟨i1, i2, i3, i4⟩ := ih
    have hsn := keepFrom_snoc k m b []
    rw [List.nil_append] at hsn
    have hkeeps := NewCombo.keeps_congr (keepFrom k [] b) b m i2 i3 i4
    have hs := NewCombo.honored_snoc b m
    have hs' := NewCombo.honored_snoc (keepFrom k [] b) m
    by_cases hkm : k b m = true
    · simp only [hkm, if_true] at hsn
      rw [hsn, hs, hs', hkeeps, i1]
      refine ⟨rfl, ?_, ?_, ?_⟩
      · simp [List.any_append, i2]
      · simp [List.any_append, i3]
      · intro x hx
        simp [List.mem_append, i4 x hx]
    · have hkm' : k b m = false := by simpa using hkm
      simp only [hkm', Bool.false_eq_true, if_false, List.append_nil] at hsn
      rw [hsn, hs, i1]
      rcases hk b m hkm' with ⟨hf, hany⟩ | ⟨hb, hany⟩ | ⟨hm, hmem⟩
      · have hb := NewCombo.fg_not_bg hf
        have hm := NewCombo.fg_not_mod hf
        refine ⟨by simp [NewCombo.keeps, hf, hb, hm, hany], ?_, ?_, ?_⟩
        · simp [List.any_append, i2, hany]
        · simp [List.any_append, i3, hb]
        · intro x hx
          have : x ≠ m := fun e => by rw [e, hm] at hx; cases hx
          simp [List.mem_append, i4 x hx, this]
      · have hm := NewCombo.bg_not_mod hb
        have hf : NewCombo.isFg m = false := by
          cases hf : NewCombo.isFg m with
          | false => rfl
          | true => rw [NewCombo.fg_not_bg hf] at hb; cases hb
        refine ⟨by simp [NewCombo.keeps, hf, hb, hm, hany], ?_, ?_, ?_⟩
        · simp [List.any_append, i2, hf]
        · simp [List.any_append, i3, hany]
        · intro x hx
          have : x ≠ m := fun e => by rw [e, hm] at hx; cases hx
          simp [List.mem_append, i4 x hx, this]
      · have hf : NewCombo.isFg m = false := by
          cases hf : NewCombo.isFg m with
          | false => rfl
          | true => rw [NewCombo.fg_not_mod hf] at hm; cases hm
        have hb : NewCombo.isBg m = false := by
          cases hb : NewCombo.isBg m with
          | false => rfl
          | true => rw [NewCombo.bg_not_mod hb] at hm; cases hm
        refine ⟨by simp [NewCombo.keeps, hf, hb, hm, hmem], ?_, ?_, ?_⟩
        · simp [List.any_append, i2, hf]
        · simp [List.any_append, i3, hb]
        · intro x hx
          rw [i4 x hx]
          constructor
          · intro h; exact List.mem_append.mpr (Or.inl h)
          · intro h
            rcases List.mem_append.mp h with h | h
            · exact h
            · have : x = m := by simpa using h
              subst this
              exact hmem

/-- Of the tokens of one colour channel, exactly the first is honoured. -/
theorem NewCombo.honored_filter (p : Str → Bool)
    (hp : ∀ b m, p m = true → NewCombo.keeps b m = !b.any p) :
    ∀ b : List Str, (NewCombo.honored b).filter p = (b.filter p).take 1 := by
  intro b
  induction b using List.reverseRecOn with
  | nil => simp [NewCombo.honored, keepFrom]
  | append_singleton b m ih =>
    rw [NewCombo.honored_snoc, List.filter_append, List.filter_append, ih]
    cases hpm : p m with
    | false =>
      by_cases hk : NewCombo.keeps b m = true <;> simp [hk, hpm]
    | true =>
      have hkeep := hp b m hpm
      cases hany : b.any p with
      | false =>
        have hnil : b.filter p = [] := by
          rw [List.filter_eq_nil_iff]
          intro a ha hpa
          have : b.any p = true := List.any_eq_true.mpr ⟨a, ha, hpa⟩
          rw [hany] at this
          cases this
        rw [hany] at hkeep
        simp [hkeep, hpm, hnil]
      | true =>
        obtain ⟨a, ha, hpa⟩ := List.any_eq_true.mp hany
        have hne : b.filter p ≠ [] := by
          intro h
          rw [List.filter_eq_nil_iff] at h
          exact h a ha hpa
        rw [hany] at hkeep
        cases hfl : b.filter p with
        | nil => exact absurd hfl hne
        | cons c l => simp [hkeep, hpm]

theorem NewCombo.keeps_fg (b : List Str) (m : Str) (h : NewCombo.isFg m = true) :
    NewCombo.keeps b m = !b.any NewCombo.isFg := by
  simp [NewCombo.keeps, h, NewCombo.fg_not_bg h, NewCombo.fg_not_mod h]

theorem NewCombo.keeps_bg (b : List Str) (m : Str) (h : NewCombo.isBg m = true) :
    NewCombo.keeps b m = !b.any NewCombo.isBg := by
  have hf : NewCombo.isFg m = false := by
    cases hf : NewCombo.isFg m with
    | false => rfl
    | true => rw [NewCombo.fg_not_bg hf] at h; cases h
  simp [NewCombo.keeps, h, hf, NewCombo.bg_not_mod h]

theorem NewCombo.honored_sublist (b : List Str) : List.Sublist (NewCombo.honored b) b :=
  keepFrom_sublist NewCombo.keeps b []

/-- A modifier token occurs at most once among the honoured tokens. -/
theorem NewCombo.honored_count (x : Str) (hx : NewCombo.isMod x = true) :
    ∀ b : List Str, (NewCombo.honored b).count x ≤ 1 := by
  intro b
  induction b using List.reverseRecOn with
  | nil => simp [NewCombo.honored, keepFrom]
  | append_singleton b m ih =>
    rw [NewCombo.honored_snoc, List.count_append]
    by_cases hk : NewCombo.keeps b m = true
    · simp only [hk, if_true]
      by_cases hxm : m = x
      · subst hxm
        have hf : NewCombo.isFg m = false := by
          cases hf : NewCombo.isFg m with
          | false => rfl
          | true => rw [NewCombo.fg_not_mod hf] at hx; cases hx
        have hb : NewCombo.isBg m = false := by
          cases hb : NewCombo.isBg m with
          | false => rfl
          | true => rw [NewCombo.bg_not_mod hb] at hx; cases hx
        have hnot : m ∉ b := by
          intro hmem
          simp [NewCombo.keeps, hf, hb, hx, hmem] at hk
        have hnot' : m ∉ NewCombo.honored b :=
          fun h => hnot ((NewCombo.honored_sublist b).mem h)
        rw [List.count_eq_zero_of_not_mem hnot']
        simp
      · have : List.count x [m] = 0 := by
          apply List.count_eq_zero_of_not_mem
          simp [Ne.symm hxm]
        omega
    · simp only [hk, if_false, Bool.false_eq_true]
      simpa using ih

theorem keepFrom_mem (k : List Str → Str → Bool) :
    ∀ (l c : List Str) (x : Str), x ∈ keepFrom k c l → ∃ before, k before x = true := by
  intro l
  induction l with
  | nil => intro c x h; simp [keepFrom] at h
  | cons a l ih =>
    intro c x h
    by_cases hk : k c a = true
    · simp only [keepFrom, hk, if_true] at h
      rcases List.mem_cons.mp h with rfl | h
      · exact ⟨c, hk⟩
      · exact ih _ x h
    · simp only [keepFrom, hk, if_false] at h
      exact ih _ x h

/-- Every honoured token is one of the recognised tokens. -/
theorem NewCombo.honored_recognised (b : List Str) (x : Str) (h : x ∈ NewCombo.honored b) :
    NewCombo.recognised x = true := by
  obtain ⟨before, hk⟩ := keepFrom_mem NewCombo.keeps b [] x h
  unfold NewCombo.recognised
  rcases NewCombo.classes x with ⟨hf, hb, hm⟩ | ⟨hf, hb, hm⟩ | ⟨hf, hb, hm⟩ | ⟨hf, hb, hm⟩
  · simp [hf]
  · simp [hb]
  · simp [hm]
  · simp [NewCombo.keeps, hf, hb, hm] at hk

/-- A recognised token is not empty and holds no `;`. -/
theorem NewCombo.token_shape {m : Str} (h : NewCombo.recognised m = true) :
    m ≠ [] ∧ (59 : Byte) ∉ m := by
  rcases NewCombo.classes m with ⟨hf, _, _⟩ | ⟨_, hb, _⟩ | ⟨_, _, hm⟩ | ⟨hf, hb, hm⟩
  · simp only [NewCombo.isFg, Bool.or_eq_true, decide_eq_true_eq] at hf
    rcases hf with ((((((rfl | rfl) | rfl) | rfl) | rfl) | rfl) | rfl) | rfl <;> decide
  · simp only [NewCombo.isBg, Bool.or_eq_true, decide_eq_true_eq] at hb
    rcases hb with ((((((rfl | rfl) | rfl) | rfl) | rfl) | rfl) | rfl) | rfl <;> decide
  · simp only [NewCombo.isMod, Bool.or_eq_true, decide_eq_true_eq] at hm
    rcases hm with (((rfl | rfl) | rfl) | rfl) | rfl <;> decide
  · simp [NewCombo.recognised, hf, hb, hm] at h

theorem tidy_of_no_sep (t : Str) (h : (59 : Byte) ∉ t) : Tidy t := by
  refine ⟨?_, ?_, ?_⟩
  · intro b hb e
    exact h (e ▸ List.mem_of_mem_head? hb)
  · intro b hb e
    exact h (e ▸ List.mem_of_mem_getLast? hb)
  · apply List.Pairwise.chain'
    apply List.pairwise_of_forall_mem_list
    intro a ha _ _ hab
    exact h (hab.1 ▸ ha)

/-- Tokens that are not empty and hold no `;`, joined with `;`, give a text
without stray separators. -/
theorem tidy_joinWith :
    ∀ toks : List Str, (∀ t ∈ toks, t ≠ [] ∧ (59 : Byte) ∉ t) →
      Tidy (joinWith [59] toks) ∧ (toks ≠ [] → joinWith [59] toks ≠ []) := by
  intro toks
  induction toks with
  | nil => intro _; exact ⟨tidy_of_no_sep [] (by simp), fun h => absurd rfl h⟩
  | cons x rest ih =>
    intro h
    have hx := h x (List.mem_cons_self _ _)
    have hrest : ∀ t ∈ rest, t ≠ [] ∧ (59 : Byte) ∉ t :=
      fun t ht => h t (List.mem_cons_of_mem _ ht)
    cases rest with
    | nil => exact ⟨by simpa [joinWith] using tidy_of_no_sep x hx.2, fun _ => by simpa [joinWith] using hx.1⟩
    | cons y ys =>
      obtain ⟨⟨q1, q2, q3⟩, qne⟩ := ih hrest
      have hQ : joinWith [59] (y :: ys) ≠ [] := qne (by simp)
      obtain ⟨x1, x2, x3⟩ := tidy_of_no_sep x hx.2
      have hP : joinWith [59] (x :: y :: ys) = x ++ ([59] ++ joinWith [59] (y :: ys)) := by
        simp [joinWith]
      rw [hP]
      refine ⟨⟨?_, ?_, ?_⟩, fun _ => by simp [hx.1]⟩
      · rw [List.head?_append_of_ne_nil _ hx.1]
        exact x1
      · have hne : [59] ++ joinWith [59] (y :: ys) ≠ [] := by simp
        rw [List.getLast?_append_of_ne_nil _ hne, List.getLast?_append_of_ne_nil _ hQ]
        exact q2
      · apply List.Chain'.append x3
        · apply List.Chain'.append (List.chain'_singleton _) q3
          intro a _ c hc hac
          exact q1 c hc hac.2
        · intro a ha c _ hac
          exact x2 a ha hac.1

/-! ### The claims on the combination builder -/

/-- C14: `NewCombo` gives the same value when the later repeats of modifier
tokens are removed; each modifier token occurs at most once among the honoured
tokens, which make up the prologue; so `NewCombo(p, Bld, Bld, Underln)` is
`ESC[1;4m`, `p`, `ESC[0m`. -/
theorem NewCombo_dedup (s : Str) (mods : List Str) :
    NewCombo s (NewCombo.dropRepeatedMods mods) = NewCombo s mods ∧
    (∃ tail : Str, NewCombo s mods =
      CSI ++ joinWith [59] (NewCombo.honored mods) ++ [109] ++ tail) ∧
    (∀ m ∈ [Bld, Faint, Ital, Underln, Blink], (NewCombo.honored mods).count m ≤ 1) ∧
    NewCombo s [Bld, Bld, Underln] = [27, 91, 49, 59, 52, 109] ++ s ++ [27, 91, 48, 109] := by
  refine ⟨?_, ?_, ?_, ?_⟩
  · have hk := NewCombo.honored_keepFrom
      (fun before m => !(NewCombo.isMod m && before.contains m))
      (by
        intro b m h
        simp only [Bool.not_eq_false', Bool.and_eq_true] at h
        exact Or.inr (Or.inr ⟨h.1, by simpa using h.2⟩)) mods
    rw [NewCombo.eq_join s mods, NewCombo.eq_join s (NewCombo.dropRepeatedMods mods)]
    unfold NewCombo.dropRepeatedMods
    rw [hk.1]
  · refine ⟨s ++ CSI ++ joinWith [sepCSI] (NewCombo.resets (NewCombo.honored mods)) ++ [endCSI], ?_⟩
    rw [NewCombo.eq_join s mods]
    simp [sepCSI, endCSI]
  · intro m hm
    apply NewCombo.honored_count m _ mods
    simp only [List.mem_cons, List.mem_singleton, List.not_mem_nil, or_false] at hm
    rcases hm with rfl | rfl | rfl | rfl | rfl <;> decide
  · rw [NewCombo.eq_join]
    have h1 : NewCombo.honored [Bld, Bld, Underln] = [Bld, Underln] := by decide
    rw [h1]
    have h2 : NewCombo.resets [Bld, Underln] = [NoMode] := by decide
    rw [h2]
    simp [joinWith, CSI, Bld, Underln, NoMode, endCSI, sepCSI]

theorem any_perm (p : Str → Bool) {l l' : List Str} (h : List.Perm l l') :
    l.any p = l'.any p := by
  rw [Bool.eq_iff_iff, List.any_eq_true, List.any_eq_true]
  constructor
  · rintro ⟨x, hx, hp⟩; exact ⟨x, h.mem_iff.mp hx, hp⟩
  · rintro ⟨x, hx, hp⟩; exact ⟨x, h.mem_iff.mpr hx, hp⟩

/-- C16: `NewCombo` ends, after the payload, with `ESC[`, the reset codes
joined with `;`, and `m`, where the reset codes are `39` when a foreground
token is honoured, then `49` when a background token is honoured, then `0`
when a modifier token is honoured; the reset codes do not depend on the order
of `mods`, and with no honoured token the epilogue is the bare `ESC[m`. -/
theorem NewCombo_epilogue (s : Str) (mods : List Str) :
    NewCombo s mods =
      CSI ++ joinWith [59] (NewCombo.honored mods) ++ [109] ++ s ++ CSI ++
        joinWith [59]
          ((if (NewCombo.honored mods).any NewCombo.isFg then [[51, 57]] else []) ++
            (if (NewCombo.honored mods).any NewCombo.isBg then [[52, 57]] else []) ++
            (if (NewCombo.honored mods).any NewCombo.isMod then [[48]] else [])) ++ [109] ∧
    (∀ mods' : List Str, List.Perm mods mods' →
      NewCombo.resets (NewCombo.honored mods') = NewCombo.resets (NewCombo.honored mods)) ∧
    (NewCombo.honored mods = [] → NewCombo s mods = [27, 91, 109] ++ s ++ [27, 91, 109]) := by
  refine ⟨?_, ?_, ?_⟩
  · rw [NewCombo.eq_join s mods]
    simp [NewCombo.resets, sepCSI, endCSI, FgDefault, BgDefault, NoMode]
  · intro mods' hperm
    obtain ⟨a1, a2, a3, _⟩ := NewCombo.honored_any mods
    obtain ⟨b1, b2, b3, _⟩ := NewCombo.honored_any mods'
    unfold NewCombo.resets
    rw [a1, a2, a3, b1, b2, b3, any_perm _ hperm, any_perm _ hperm, any_perm _ hperm]
  · intro h
    rw [NewCombo.eq_join s mods, h]
    simp [NewCombo.resets, joinWith, CSI, endCSI]

/-- C16, with no honoured token: the tokens `39` and `0` are not recognised. -/
theorem NewCombo_epilogue_witness :
    NewCombo.honored [FgDefault, NoMode] = [] ∧
      NewCombo [120] [FgDefault, NoMode] = [27, 91, 109] ++ [120] ++ [27, 91, 109] :=
  ⟨by decide, (NewCombo_epilogue [120] [FgDefault, NoMode]).2.2 (by decide)⟩

/-! ### The reference behaviour on well-formed strings -/

theorem Seg.texts_nil_of_render_nil :
    ∀ segs : List Seg, Seg.render segs = [] → Seg.texts segs = [] := by
  intro segs
  induction segs with
  | nil => intro _; rfl
  | cons sg rest ih =>
    intro h
    cases sg with
    | text t =>
      simp only [Seg.render, Seg.bytes, List.append_eq_nil] at h
      simp [Seg.texts, h.1, ih h.2]
    | sgr p => simp [Seg.render, Seg.bytes] at h

/-- The bare sequence `ESC [ m` ends `front ++ R` exactly when it ends `R`,
provided `front` holds no `ESC` and `R`, when shorter than three bytes, holds
none either. -/
theorem bare_suffix_text (t R : Str) (ht : 27 ∉ t) (hR : R.length < 3 → 27 ∉ R) :
    [27, 91, 109] <:+ t ++ R ↔ [27, 91, 109] <:+ R := by
  constructor
  · intro h
    by_cases hlen : 3 ≤ R.length
    · exact List.suffix_of_suffix_length_le h (List.suffix_append t R) (by simpa using hlen)
    · have hno : (27 : Byte) ∉ t ++ R := by
        intro hm
        rcases List.mem_append.mp hm with hm | hm
        · exact ht hm
        · exact hR (by omega) hm
      exact absurd (h.mem (by simp)) hno
  · intro h
    exact h.trans (List.suffix_append t R)

theorem bare_suffix_sgr (p R : Str) (hp : ∀ b ∈ p, legal b = true)
    (hR : R.length < 3 → 27 ∉ R) (hbare : ¬ (p = [] ∧ R = [])) :
    [27, 91, 109] <:+ (27 :: 91 :: (p ++ [109])) ++ R ↔ [27, 91, 109] <:+ R := by
  constructor
  · intro h
    by_cases hlen : 3 ≤ R.length
    · exact List.suffix_of_suffix_length_le h (List.suffix_append _ R) (by simpa using hlen)
    · have hRno : (27 : Byte) ∉ R := hR (by omega)
      obtain ⟨pre, hpre⟩ := h
      cases pre with
      | nil =>
        exfalso
        apply hbare
        simp only [List.nil_append, List.cons_append, List.cons.injEq, true_and] at hpre
        cases p with
        | nil =>
          exact ⟨rfl, by simpa using hpre.symm⟩
        | cons c p =>
          simp only [List.cons_append, List.cons.injEq] at hpre
          have := hpre.2
          simp at this
      | cons a pre =>
        exfalso
        simp only [List.cons_append, List.cons.injEq] at hpre
        have hmem : (27 : Byte) ∈ pre ++ [27, 91, 109] := by simp
        rw [hpre.2] at hmem
        simp only [List.mem_cons, List.mem_append, List.mem_singleton, List.not_mem_nil,
          or_false] at hmem
        rcases hmem with h1 | (h2 | h3) | h4
        · exact absurd h1 (by decide)
        · exact not_esc_of_legal hp h2
        · exact absurd h3 (by decide)
        · exact hRno h4
  · intro h
    exact h.trans (List.suffix_append _ R)

/-- The output of the scan of a well-formed string, in terms of its text runs:
the text runs, followed by `ESC [ m` when the string ends with that bare
sequence. -/
theorem Seg.plain_eq_texts :
    ∀ segs : List Seg, (∀ sg ∈ segs, sg.ok) →
      ([27, 91, 109] <:+ Seg.render segs →
        Seg.plain segs = Seg.texts segs ++ [27, 91, 109]) ∧
      (¬ [27, 91, 109] <:+ Seg.render segs → Seg.plain segs = Seg.texts segs) := by
  intro segs
  induction segs with
  | nil =>
    intro _
    constructor
    · intro h
      have := h.length_le
      simp [Seg.render] at this
    · intro _; rfl
  | cons sg rest ih =>
    intro hok
    have hrest : ∀ x ∈ rest, x.ok := fun x hx => hok x (List.mem_cons_of_mem _ hx)
    have hsg : sg.ok := hok sg (List.mem_cons_self _ _)
    obtain ⟨ih1, ih2⟩ := ih hrest
    have hR : (Seg.render rest).length < 3 → 27 ∉ Seg.render rest :=
      fun hl => (Seg.short_render rest hrest hl).1
    cases sg with
    | text t =>
      simp only [Seg.ok] at hsg
      have hiff := bare_suffix_text t (Seg.render rest) hsg hR
      simp only [Seg.render, Seg.bytes, Seg.plain, Seg.texts]
      constructor
      · intro h
        rw [ih1 (hiff.mp h), List.append_assoc]
      · intro h
        rw [ih2 (fun h' => h (hiff.mpr h'))]
    | sgr p =>
      simp only [Seg.ok] at hsg
      by_cases hbare : p = [] ∧ Seg.render rest = []
      · have ht := Seg.texts_nil_of_render_nil rest hbare.2
        simp only [Seg.render, Seg.bytes, Seg.plain, Seg.texts, hbare.1, hbare.2, ht]
        simp
      · have hiff := bare_suffix_sgr p (Seg.render rest) hsg hR hbare
        simp only [Seg.render, Seg.bytes, Seg.plain, Seg.texts, hbare, if_false]
        constructor
        · intro h
          exact ih1 (hiff.mp h)
        · intro h
          exact ih2 (fun h' => h (hiff.mpr h'))

/-- C18: in both states of the flag each byte variant returns the bytes that
the `String` method of the same name returns on the same payload
(`BYellowGreenByte` being the variant of `BYellow`); with colours enabled the
payload stands unchanged between `ESC[<code>m` and `ESC[<reset>m`. -/
theorem byte_variant_eq_string (e : Bool) (b : Str) :
    ∀ x ∈ byteVariants,
      x.1 e b = x.2.1 e b ∧ x.1 false b = b ∧
      x.1 true b = CSI ++ x.2.2.1 ++ [109] ++ b ++ CSI ++ x.2.2.2 ++ [109] := by
  intro x hx
  simp only [byteVariants, List.mem_cons, List.mem_singleton, List.not_mem_nil,
    or_false] at hx
  rcases hx with rfl | rfl | rfl | rfl | rfl | rfl | rfl | rfl | rfl | rfl | rfl | rfl | rfl | rfl | rfl | rfl | rfl | rfl | rfl | rfl <;>
    exact ⟨by cases e <;> rfl, rfl, rfl⟩

/-- C18, at the payload `x` for `GreenByte`. -/
theorem byte_variant_eq_string_witness :
    (GreenByte, Green.String, FgGreen, FgDefault) ∈ byteVariants ∧
      GreenByte true [120] = Green.String true [120] ∧ GreenByte false [120] = [120] ∧
      GreenByte true [120] = CSI ++ FgGreen ++ [109] ++ [120] ++ CSI ++ FgDefault ++ [109] :=
  ⟨List.mem_cons_self _ _,
    byte_variant_eq_string true [120] (GreenByte, Green.String, FgGreen, FgDefault)
      (List.mem_cons_self _ _)⟩

theorem Call.execAll_flag :
    ∀ (cs : List Call) (g : Globals),
      (Call.execAll cs g).colorEnable = (Call.lastToggle cs).getD g.colorEnable := by
  intro cs
  induction cs with
  | nil => intro g; rfl
  | cons c rest ih =>
    intro g
    have hstep : Call.execAll (c :: rest) g = Call.execAll rest (c.exec g) := rfl
    rw [hstep, ih (c.exec g)]
    cases hl : Call.lastToggle rest with
    | some v => simp [Call.lastToggle, hl]
    | none =>
      cases c <;> simp [Call.lastToggle, hl, Call.exec, Term.ColorEnable, Term.ColorDisable]

/-- C19: with `colorEnable` as explicit state, after any sequence of calls a
static single-attribute value renders as its payload once `ColorDisable` has
been called and as the wrapped string once `ColorEnable` has been called, and
the two renderings differ; after a sequence of calls the flag is the value set
by the last toggle (the initial value when there is none); a call that is
neither `ColorEnable` nor `ColorDisable` leaves the flag as it is. -/
theorem flag_read_at_render_time (P : Str) (cs : List Call) (g : Globals) :
    (∀ x ∈ stringMethods,
      x.1 (ColorDisable (Call.execAll cs g)).colorEnable P = P ∧
      x.1 (ColorEnable (Call.execAll cs g)).colorEnable P =
        CSI ++ x.2.1 ++ [109] ++ P ++ CSI ++ x.2.2 ++ [109] ∧
      x.1 (ColorDisable (Call.execAll cs g)).colorEnable P ≠
        x.1 (ColorEnable (Call.execAll cs g)).colorEnable P) ∧
    (Call.execAll cs g).colorEnable = (Call.lastToggle cs).getD g.colorEnable ∧
    (∀ c : Call, c ≠ Call.ColorEnable → c ≠ Call.ColorDisable → c.exec g = g) := by
  refine ⟨?_, Call.execAll_flag cs g, ?_⟩
  · intro x hx
    simp only [stringMethods, List.mem_cons, List.mem_singleton, List.not_mem_nil,
      or_false] at hx
    rcases hx with rfl | rfl | rfl | rfl | rfl | rfl | rfl | rfl | rfl | rfl | rfl | rfl | rfl | rfl | rfl | rfl | rfl | rfl | rfl | rfl <;>
      refine ⟨rfl, rfl, fun h => ?_⟩ <;>
      have hlen := congrArg List.length h <;>
      simp [ColorDisable, ColorEnable, colConcat, CSI,
        Green.String, Blue.String, Red.String, Yellow.String, Magenta.String,
        White.String, Black.String, Cyan.String, BGreen.String, BBlue.String, BRed.String,
        BYellow.String, BMagenta.String, BWhite.String, BBlack.String, BCyan.String,
        Blinking.String, Underline.String, Bold.String, Italic.String, FgGreen, FgBlue,
        FgRed, FgYellow, FgMagenta, FgWhite, FgBlack, FgCyan, BgGreen, BgBlue, BgRed,
        BgYellow, BgMagenta, BgWhite, BgBlack, BgCyan, Blink, Underln, Bld, Ital,
        FgDefault, BgDefault, NoMode] at hlen <;>
      omega
  · intro c h1 h2
    cases c
    · exact absurd rfl h1
    · exact absurd rfl h2
    · rfl
    · rfl

/-- C20: on a well-formed string (text runs without `ESC` and sequences
`ESC [ (digit | ;)* m`, in any order) the disabled rendering returns the text
runs in order when the string does not end with the bare `ESC [ m`, and the
text runs followed by that final `ESC [ m` when it does. -/
theorem strip_wellformed (segs : List Seg) (h : ∀ sg ∈ segs, sg.ok) :
    (¬ [27, 91, 109] <:+ Seg.render segs →
      Color.Returns false (Seg.render segs) (Seg.texts segs)) ∧
    ([27, 91, 109] <:+ Seg.render segs →
      Color.Returns false (Seg.render segs) (Seg.texts segs ++ [27, 91, 109])) := by
  have hret := returns_of_strip (Seg.strip_render segs h)
  obtain ⟨h1, h2⟩ := Seg.plain_eq_texts segs h
  constructor
  · intro hs
    rw [← h2 hs]
    exact hret
  · intro hs
    rw [← h1 hs]
    exact hret

/-- C20, at the string `a ESC[1;31m b c ESC[0m d`. -/
theorem strip_wellformed_witness :
    (∀ sg ∈ [Seg.text [97], Seg.sgr [49, 59, 51, 49], Seg.text [98, 99], Seg.sgr [48],
        Seg.text [100]], sg.ok) ∧
      Color.Returns false
        [97, 27, 91, 49, 59, 51, 49, 109, 98, 99, 27, 91, 48, 109, 100] [97, 98, 99, 100] :=
  have h : ∀ sg ∈ [Seg.text [97], Seg.sgr [49, 59, 51, 49], Seg.text [98, 99], Seg.sgr [48],
      Seg.text [100]], sg.ok := by
    intro sg hsg
    simp only [List.mem_cons, List.mem_singleton, List.not_mem_nil, or_false] at hsg
    rcases hsg with rfl | rfl | rfl | rfl | rfl <;> simp only [Seg.ok] <;> decide
  ⟨h, (strip_wellformed _ h).1 (by decide)⟩

/-! ### The token classes of the source and of the specification agree -/

theorem NewCombo.isFg_eq : NewCombo.isFg = isForegroundToken := by
  funext m
  rw [Bool.eq_iff_iff]
  simp [NewCombo.isFg, isForegroundToken, foregroundTokens, FgBlack, FgRed, FgGreen, FgYellow,
    FgBlue, FgMagenta, FgCyan, FgWhite, or_assoc]

theorem NewCombo.isBg_eq : NewCombo.isBg = isBackgroundToken := by
  funext m
  rw [Bool.eq_iff_iff]
  simp [NewCombo.isBg, isBackgroundToken, backgroundTokens, BgBlack, BgRed, BgGreen, BgYellow,
    BgBlue, BgMagenta, BgCyan, BgWhite, or_assoc]

theorem NewCombo.isMod_eq : NewCombo.isMod = isModifierToken := by
  funext m
  rw [Bool.eq_iff_iff]
  simp [NewCombo.isMod, isModifierToken, modifierTokens, Bld, Faint, Ital, Underln, Blink,
    or_assoc]

theorem NewCombo.keeps_eq : NewCombo.keeps = honouredHere := by
  funext before m
  simp only [NewCombo.keeps, honouredHere, NewCombo.isFg_eq, NewCombo.isBg_eq,
    NewCombo.isMod_eq]

theorem NewCombo.honored_eq (mods : List Str) : NewCombo.honored mods = honouredTokens mods := by
  simp only [NewCombo.honored, honouredTokens, NewCombo.keeps_eq]

theorem NewCombo.dropLaterColours_eq (mods : List Str) :
    NewCombo.dropLaterColours mods = withoutLaterColours mods := by
  simp only [NewCombo.dropLaterColours, withoutLaterColours, NewCombo.isFg_eq, NewCombo.isBg_eq]

theorem NewCombo.recognised_iff (m : Str) :
    NewCombo.recognised m = true ↔ m ∈ attributeTokens := by
  simp only [NewCombo.recognised, NewCombo.isFg_eq, NewCombo.isBg_eq, NewCombo.isMod_eq,
    isForegroundToken, isBackgroundToken, isModifierToken, attributeTokens, Bool.or_eq_true,
    decide_eq_true_eq, List.mem_append]

/-! ### Round trip of the combination builder -/

/-- A run of text without the two-byte prefix `ESC [` is copied when at least
three bytes follow it and the first of them is not `[`. -/
theorem strip_text_noCSI (tail : Str) (r : Option Outcome) (htail : 3 ≤ tail.length)
    (hhead : tail.head? ≠ some 91) (hr : Strip tail r) :
    ∀ t : Str, ¬ [27, 91] <:+: t → Strip (t ++ tail) (r.map (Outcome.prepend t)) := by
  intro t
  induction t with
  | nil => intro _; simpa [map_prepend_nil] using hr
  | cons a t ih =>
    intro ht
    have ht' : ¬ [27, 91] <:+: t := fun h => ht (List.infix_cons h)
    have ih' := ih ht'
    cases hx : t ++ tail with
    | nil =>
      have : (t ++ tail).length = 0 := by rw [hx]; rfl
      simp only [List.length_append] at this
      omega
    | cons b rest =>
      have hlen : 2 ≤ rest.length := by
        have : (t ++ tail).length = rest.length + 1 := by rw [hx]; rfl
        simp only [List.length_append] at this
        omega
      have hne : ¬ (a = 27 ∧ b = 91) := by
        rintro ⟨ha, hb⟩
        cases t with
        | nil =>
          rw [List.nil_append] at hx
          apply hhead
          rw [hx, hb]
          rfl
        | cons c t =>
          simp only [List.cons_append, List.cons.injEq] at hx
          apply ht
          rw [ha, hx.1, hb]
          exact ⟨[], t, rfl⟩
      rw [hx] at ih'
      have := Strip.copy a b rest _ hlen hne ih'
      rw [map_prepend_prepend] at this
      simpa [hx] using this

/-- C1 (as stated, refuted): with an empty token list the epilogue of
`NewCombo` is the bare `ESC [ m`, which the disabled rendering leaves in the
output, so the payload `x` is not returned exactly; and a payload that holds a
sequence of its own, here `ESC [ 1 m` with the token `FgRed`, is stripped with
the rest, so the empty string is returned instead of the payload. -/
theorem NewCombo_strip_counterexample :
    (Color.Returns false (NewCombo [120] []) [120, 27, 91, 109] ∧
      ¬ Color.Returns false (NewCombo [120] []) [120]) ∧
    (Color.Returns false (NewCombo [27, 91, 49, 109] [FgRed]) [] ∧
      ¬ Color.Returns false (NewCombo [27, 91, 49, 109] [FgRed]) [27, 91, 49, 109]) := by
  have h : Color.Returns false (NewCombo [120] []) [120, 27, 91, 109] :=
    returns_of_run 10 (by decide)
  have h2 : Color.Returns false (NewCombo [27, 91, 49, 109] [FgRed]) [] :=
    returns_of_run 20 (by decide)
  exact ⟨⟨h, fun h' => absurd (Color.Returns.unique h h') (by decide)⟩,
    ⟨h2, fun h' => absurd (Color.Returns.unique h2 h') (by decide)⟩⟩

/-- C1 (amended): for a payload that does not hold the two-byte prefix
`ESC [`, the disabled rendering of `NewCombo s mods` returns exactly `s` when
`mods` holds at least one of the twenty-one attribute tokens, and `s` followed
by the bare `ESC [ m` when it holds none. -/
theorem NewCombo_strip (s : Str) (mods : List Str) (hs : ¬ [27, 91] <:+: s) :
    ((∃ m ∈ mods, m ∈ attributeTokens) → Color.Returns false (NewCombo s mods) s) ∧
    ((∀ m ∈ mods, m ∉ attributeTokens) →
      Color.Returns false (NewCombo s mods) (s ++ [27, 91, 109])) := by
  obtain ⟨P, E, hshape, hP, hE, hnil⟩ := NewCombo.shape s mods
  rw [hshape]
  constructor
  · rintro ⟨m, hm, hmt⟩
    have hany : mods.any NewCombo.recognised = true :=
      List.any_eq_true.mpr ⟨m, hm, (NewCombo.recognised_iff m).mpr hmt⟩
    apply returns_of_strip
    have hne : 1 ≤ E.length + ([] : Str).length := by
      have : E ≠ [] := fun h => by
        have := hnil.mp h
        rw [hany] at this
        cases this
      have := List.length_pos.mpr this
      simpa using this
    have hep : Strip (27 :: 91 :: (E ++ [109])) (some (Outcome.ret [])) :=
      strip_mode E [] _ hE hne Strip.done
    have hmid := strip_text_noCSI _ _ (by simp) (by simp) hep s hs
    have := strip_mode P _ _ hP (by simp; omega) hmid
    simpa [Outcome.prepend] using this
  · intro hnone
    have hany : mods.any NewCombo.recognised = false := by
      cases h : mods.any NewCombo.recognised with
      | false => rfl
      | true =>
        obtain ⟨m, hm, hr⟩ := List.any_eq_true.mp h
        exact absurd ((NewCombo.recognised_iff m).mp hr) (hnone m hm)
    have hE0 : E = [] := hnil.mpr hany
    subst hE0
    apply returns_of_strip
    have hep : Strip [27, 91, 109] (some (Outcome.ret [27, 91, 109])) :=
      Strip.short _ (by simp) (by simp)
    have hmid := strip_text_noCSI _ _ (by simp) (by simp) hep s hs
    have := strip_mode P _ _ hP (by simp; omega) hmid
    simpa [Outcome.prepend] using this

/-- C1 (amended), at the payload `ESC A ESC` with the tokens `BgBlue, Bld`,
and at the same payload with no token. -/
theorem NewCombo_strip_witness :
    ¬ [27, 91] <:+: ([27, 65, 27] : Str) ∧
      Color.Returns false (NewCombo [27, 65, 27] [BgBlue, Bld]) [27, 65, 27] ∧
      Color.Returns false (NewCombo [27, 65, 27] []) ([27, 65, 27] ++ [27, 91, 109]) :=
  ⟨by decide,
    (NewCombo_strip [27, 65, 27] [BgBlue, Bld] (by decide)).1 ⟨BgBlue, by decide, by decide⟩,
    (NewCombo_strip [27, 65, 27] [] (by decide)).2 (by decide)⟩

/-! ### First-wins and the prologue, against the token lists of the specification -/

/-- C13: `NewCombo` gives the same value when the foreground tokens (`30` ...
`37`) after the first foreground token and the background tokens (`40` ...
`47`) after the first background token are removed; among the honoured tokens,
which make up the prologue, the foreground tokens are the first foreground
token of `mods` alone, and the same for the background; so
`NewCombo(s, FgRed, FgGreen)` is `ESC[31m`, `s`, `ESC[39m`,
`NewCombo(s, BgRed, BgGreen)` is `ESC[41m`, `s`, `ESC[49m`, and
`NewCombo(s, BgRed, FgRed, BgGreen, FgGreen)` is `ESC[41;31m`, `s`,
`ESC[39;49m`. -/
theorem NewCombo_first_wins (s : Str) (mods : List Str) :
    NewCombo s (withoutLaterColours mods) = NewCombo s mods ∧
    (∃ tail : Str, NewCombo s mods =
      [27, 91] ++ joinWith [59] (honouredTokens mods) ++ [109] ++ tail) ∧
    (honouredTokens mods).filter isForegroundToken = (mods.filter isForegroundToken).take 1 ∧
    (honouredTokens mods).filter isBackgroundToken = (mods.filter isBackgroundToken).take 1 ∧
    NewCombo s [FgRed, FgGreen] = [27, 91, 51, 49, 109] ++ s ++ [27, 91, 51, 57, 109] ∧
    NewCombo s [BgRed, BgGreen] = [27, 91, 52, 49, 109] ++ s ++ [27, 91, 52, 57, 109] ∧
    NewCombo s [BgRed, FgRed, BgGreen, FgGreen] =
      [27, 91, 52, 49, 59, 51, 49, 109] ++ s ++ [27, 91, 51, 57, 59, 52, 57, 109] := by
  refine ⟨?_, ?_, ?_, ?_, ?_, ?_, ?_⟩
  · have hk := NewCombo.honored_keepFrom
      (fun before m =>
        !((NewCombo.isFg m && before.any NewCombo.isFg) ||
          (NewCombo.isBg m && before.any NewCombo.isBg)))
      (by
        intro b m h
        simp only [Bool.not_eq_false', Bool.or_eq_true, Bool.and_eq_true] at h
        rcases h with h | h
        · exact Or.inl h
        · exact Or.inr (Or.inl h)) mods
    rw [← NewCombo.dropLaterColours_eq, NewCombo.eq_join s mods,
      NewCombo.eq_join s (NewCombo.dropLaterColours mods)]
    unfold NewCombo.dropLaterColours
    rw [hk.1]
  · refine ⟨s ++ CSI ++ joinWith [sepCSI] (NewCombo.resets (NewCombo.honored mods)) ++ [endCSI], ?_⟩
    rw [NewCombo.eq_join s mods, NewCombo.honored_eq]
    simp [CSI, sepCSI, endCSI]
  · rw [← NewCombo.honored_eq, ← NewCombo.isFg_eq]
    exact NewCombo.honored_filter _ NewCombo.keeps_fg mods
  · rw [← NewCombo.honored_eq, ← NewCombo.isBg_eq]
    exact NewCombo.honored_filter _ NewCombo.keeps_bg mods
  · rw [NewCombo.eq_join]
    have h1 : NewCombo.honored [FgRed, FgGreen] = [FgRed] := by decide
    have h2 : NewCombo.resets [FgRed] = [FgDefault] := by decide
    rw [h1, h2]
    simp [joinWith, CSI, FgRed, FgDefault, endCSI]
  · rw [NewCombo.eq_join]
    have h1 : NewCombo.honored [BgRed, BgGreen] = [BgRed] := by decide
    have h2 : NewCombo.resets [BgRed] = [BgDefault] := by decide
    rw [h1, h2]
    simp [joinWith, CSI, BgRed, BgDefault, endCSI]
  · rw [NewCombo.eq_join]
    have h1 : NewCombo.honored [BgRed, FgRed, BgGreen, FgGreen] = [BgRed, FgRed] := by decide
    have h2 : NewCombo.resets [BgRed, FgRed] = [FgDefault, BgDefault] := by decide
    rw [h1, h2]
    simp [joinWith, CSI, BgRed, FgRed, FgDefault, BgDefault, endCSI, sepCSI]

/-- C15: `NewCombo` begins with `ESC[`, the honoured tokens joined with `;`,
`m` and the payload, where the honoured tokens are the first foreground token
(`30` ... `37`), the first background token (`40` ... `47`) and the first
occurrence of each modifier token (`1` ... `5`), in argument order; they are a
subsequence of `mods`, each is one of the twenty-one attribute tokens, a token
outside them (such as `39`, `49`, `0`, `38`, `48` or the empty token) is never
honoured, and the joined text has no leading, trailing or doubled `;`; so
`NewCombo(s, "41", "39", "1", "31", "", "1", "42", "5")` begins with
`ESC[41;1;31;5m`. -/
theorem NewCombo_prologue (s : Str) (mods : List Str) :
    (∃ tail : Str, NewCombo s mods =
      [27, 91] ++ joinWith [59] (honouredTokens mods) ++ [109] ++ s ++ tail) ∧
    List.Sublist (honouredTokens mods) mods ∧
    (∀ m ∈ honouredTokens mods, m ∈ attributeTokens) ∧
    (∀ m ∈ ([[51, 57], [52, 57], [48], [51, 56], [52, 56], []] : List Str),
      m ∉ attributeTokens ∧ m ∉ honouredTokens mods) ∧
    Tidy (joinWith [59] (honouredTokens mods)) ∧
    NewCombo s [[52, 49], [51, 57], [49], [51, 49], [], [49], [52, 50], [53]] =
      [27, 91, 52, 49, 59, 49, 59, 51, 49, 59, 53, 109] ++ s ++
        [27, 91, 51, 57, 59, 52, 57, 59, 48, 109] := by
  have hrec : ∀ m ∈ honouredTokens mods, m ∈ attributeTokens := by
    intro m hm
    rw [← NewCombo.honored_eq] at hm
    exact (NewCombo.recognised_iff m).mp (NewCombo.honored_recognised mods m hm)
  refine ⟨?_, ?_, hrec, ?_, ?_, ?_⟩
  · refine ⟨CSI ++ joinWith [sepCSI] (NewCombo.resets (NewCombo.honored mods)) ++ [endCSI], ?_⟩
    rw [NewCombo.eq_join s mods, NewCombo.honored_eq]
    simp [CSI, sepCSI, endCSI]
  · rw [← NewCombo.honored_eq]
    exact NewCombo.honored_sublist mods
  · intro m hm
    have hno : m ∉ attributeTokens := by
      simp only [List.mem_cons, List.mem_singleton, List.not_mem_nil, or_false] at hm
      rcases hm with rfl | rfl | rfl | rfl | rfl | rfl <;> decide
    exact ⟨hno, fun h => hno (hrec m h)⟩
  · rw [← NewCombo.honored_eq]
    exact (tidy_joinWith _ (fun t ht =>
      NewCombo.token_shape (NewCombo.honored_recognised mods t ht))).1
  · rw [NewCombo.eq_join]
    have h1 : NewCombo.honored [[52, 49], [51, 57], [49], [51, 49], [], [49], [52, 50], [53]] =
        [[52, 49], [49], [51, 49], [53]] := by decide
    have h2 : NewCombo.resets [[52, 49], [49], [51, 49], [53]] =
        [[51, 57], [52, 57], [48]] := by decide
    rw [h1, h2]
    simp [joinWith, CSI, endCSI, sepCSI]

/-! ### The self-test -/

theorem Color.String_mono (e : Bool) (c : Color) (o : Outcome) (n m : Nat)
    (h : Color.String e c n = some o) (hnm : n ≤ m) : Color.String e c m = some o := by
  cases e with
  | true => simpa [Color.String] using h
  | false =>
    simp only [Color.String, Bool.not_false, if_true] at h ⊢
    exact run_mono n m _ h hnm

theorem TestTerm.Piece.text_mono (e : Bool) (p : TestTerm.Piece) (t : Str) (n m : Nat)
    (h : p.text e n = some t) (hnm : n ≤ m) : p.text e m = some t := by
  cases p with
  | lit s => simpa [TestTerm.Piece.text] using h
  | color str fg bg =>
    simp only [TestTerm.Piece.text, TestTerm.Piece.call] at h ⊢
    cases hc : Color.String e (NewColor str fg bg).1 n with
    | none => simp [hc] at h
    | some o =>
      rw [Color.String_mono e _ o n m hc hnm]
      simpa [hc] using h
  | color256 str fg bg =>
    simp only [TestTerm.Piece.text, TestTerm.Piece.call] at h ⊢
    cases hc : Color.String e (NewColor256 str fg bg).1 n with
    | none => simp [hc] at h
    | some o =>
      rw [Color.String_mono e _ o n m hc hnm]
      simpa [hc] using h

/-- The fold of `TestTerm` over pieces that all render: the accumulated text
followed by the renderings in order. -/
theorem TestTerm.foldl_eq (e : Bool) (fuel : Nat) :
    ∀ (l : List TestTerm.Piece) (acc : Str), (∀ p ∈ l, (p.text e fuel).isSome = true) →
      l.foldl (fun res p => res.bind (fun r => (p.text e fuel).map (fun t => r ++ t)))
          (some acc) =
        some (acc ++ (l.map (fun p => (p.text e fuel).getD [])).flatten) := by
  intro l
  induction l with
  | nil => intro acc _; simp
  | cons p l ih =>
    intro acc h
    obtain ⟨t, ht⟩ := Option.isSome_iff_exists.mp (h p (List.mem_cons_self _ _))
    have hrest : ∀ q ∈ l, (q.text e fuel).isSome = true :=
      fun q hq => h q (List.mem_cons_of_mem _ hq)
    have hstep : (some acc).bind (fun r => (p.text e fuel).map (fun u => r ++ u)) =
        some (acc ++ t) := by simp [ht]
    rw [List.foldl_cons, hstep, ih (acc ++ t) hrest]
    simp [ht]

/-- A budget that lets every piece render lets every larger budget render the
same pieces. -/
theorem TestTerm.pieces_mono (e : Bool) (n m : Nat) (hnm : n ≤ m)
    (h : ∀ p ∈ TestTerm.script, (p.text e n).isSome = true) :
    (∀ p ∈ TestTerm.script, (p.text e m).isSome = true) ∧
    TestTerm.script.map (fun p => (p.text e m).getD []) =
      TestTerm.script.map (fun p => (p.text e n).getD []) := by
  constructor
  · intro p hp
    obtain ⟨t, ht⟩ := Option.isSome_iff_exists.mp (h p hp)
    rw [TestTerm.Piece.text_mono e p t n m ht hnm]
    rfl
  · apply List.map_congr_left
    intro p hp
    obtain ⟨t, ht⟩ := Option.isSome_iff_exists.mp (h p hp)
    rw [TestTerm.Piece.text_mono e p t n m ht hnm, ht]

set_option maxRecDepth 1000000 in
theorem TestTerm.enabled_pieces :
    (∀ p ∈ TestTerm.script, (p.text true 0).isSome = true) ∧
    TestTerm.script.map (fun p => (p.text true 0).getD []) = TestTerm.styledPieces :=
  ⟨by decide, by decide⟩

set_option maxRecDepth 1000000 in
theorem TestTerm.disabled_pieces :
    (∀ p ∈ TestTerm.script, (p.text false 64).isSome = true) ∧
    TestTerm.script.map (fun p => (p.text false 64).getD []) = TestTerm.plainPieces :=
  ⟨by decide, by decide⟩

set_option maxRecDepth 1000000 in
theorem TestTerm.plain_eq : TestTerm.plainPieces.flatten = TestTerm.plain := by
  decide

theorem TestTerm.returns (e : Bool) (n fuel : Nat) (hn : n ≤ fuel)
    (h : ∀ p ∈ TestTerm.script, (p.text e n).isSome = true) :
    TestTerm e fuel = some (TestTerm.script.map (fun p => (p.text e n).getD [])).flatten := by
  obtain ⟨h1, h2⟩ := TestTerm.pieces_mono e n fuel hn h
  have := TestTerm.foldl_eq e fuel TestTerm.script [] h1
  rw [h2, List.nil_append] at this
  exact this

set_option maxRecDepth 1000000 in
/-- C21: `TestTerm` returns, with colours enabled, the headings and the
swatches of the codes 30..37, 40..47 and of the palette indices 0..15, then
`base + column` for `row`, `cube`, `column` in 1..6 (`base = row * 6 + 9`,
plus 36 per cube), then 232..255, and with colours disabled the headings with
one `#` or space per swatch; the values and errors of its calls of `NewColor`
and `NewColor256` are these swatches, each with a nil error; the background
arguments of the `NewColor256` calls are the decimal texts of these indices;
the cube indices are the integers 16..231, each once, and all indices the
integers 0..255, each once. -/
theorem TestTerm_covers_palette :
    (∀ fuel : Nat, TestTerm true fuel = some TestTerm.styled) ∧
    (∀ fuel : Nat, 64 ≤ fuel → TestTerm false fuel = some TestTerm.plain) ∧
    TestTerm.script.filterMap TestTerm.Piece.call =
      (List.range' 30 8).map (fun k => (TestTerm.swatchFg k, none)) ++
      (List.range' 40 8).map (fun k => (TestTerm.swatchBg k, none)) ++
      TestTerm.indices.map (fun k => (TestTerm.swatch256 k, none)) ∧
    TestTerm.bgs256 = TestTerm.indices.map (fun k => strconv.Itoa (k : Int)) ∧
    List.Perm TestTerm.cubeIndices (List.range' 16 216) ∧
    List.Perm TestTerm.indices (List.range 256) ∧
    (∀ p ∈ TestTerm.script, ∀ r ∈ p.call, r.2 = none) := by
  refine ⟨?_, ?_, by decide, by decide, by decide, by decide, by decide⟩
  · intro fuel
    rw [TestTerm.returns true 0 fuel (Nat.zero_le _) TestTerm.enabled_pieces.1,
      TestTerm.enabled_pieces.2]
    rfl
  · intro fuel hf
    rw [TestTerm.returns false 64 fuel hf TestTerm.disabled_pieces.1,
      TestTerm.disabled_pieces.2, TestTerm.plain_eq]

/-- The value `NewColor` returns for the foreground code `+31` is never
rendered with colours disabled: the scan takes the sign for the end of a
look-alike and spins. -/
theorem NewColor_signed_never_rendered :
    Color.Diverges false (NewColor [120] [43, 51, 49] []).1 := by
  have hv : (NewColor [120] [43, 51, 49] []).1 =
      [] ++ 27 :: 91 :: ([] ++ 43 :: [51, 49, 59, 52, 57, 109, 120, 27, 91, 51, 57, 59, 52, 57,
        109]) := by decide
  rw [hv]
  exact diverges_of_lookalike [] [] 43 _ (by decide) (by decide) (by decide) (by decide)
    (by decide)

end Term
